import Mathlib

/-!
# Verification of the PII masking engine

Shallow embedding of the `PIIMasker` class shared by `customer_support_bot.py`
and `app.py` (the masking code in both files is textually identical; only the
pattern tables differ).  Text is modelled as `List Char`.  The regular
expressions of the pattern table are modelled by a small backtracking matcher
faithful to Python `re` semantics for the constructs the seven patterns use:
character classes, greedy bounded and unbounded repetition, optional groups,
concatenation and the word boundary `\b`.  ASCII semantics are assumed for the
character classes (`\d`, `\s`, `\w`), which covers every literal these claims
evaluate.
-/

set_option maxHeartbeats 1000000

namespace PII

/-- Python `\w`: word characters `[a-zA-Z0-9_]` (ASCII). -/
def isWordChar (c : Char) : Bool := c.isAlphanum || c == '_'

/-- Python `\s`: whitespace `[ \t\n\r\x0b\x0c]` (ASCII). -/
def isSpaceChar (c : Char) : Bool :=
  c == ' ' || c == '\t' || c == '\n' || c == '\r' ||
  c == Char.ofNat 11 || c == Char.ofNat 12

/-- Word-ness of an optional character; `none` (string edge) is a non-word position. -/
def isWordOpt : Option Char → Bool
  | some c => isWordChar c
  | none => false

/-- Regular-expression abstract syntax, covering the constructs used by the
seven patterns in `PIIMasker.__init__`.  Bounded repetition is desugared into
`seq`/`opt` when the pattern tables are built. -/
inductive RE where
  /-- empty regex -/
  | eps : RE
  /-- one character of a class -/
  | cls (p : Char → Bool) : RE
  /-- concatenation -/
  | seq (a b : RE) : RE
  /-- greedy `a?` -/
  | opt (a : RE) : RE
  /-- greedy unbounded `p*` over a character class -/
  | starCls (p : Char → Bool) : RE
  /-- word boundary `\b` -/
  | wb : RE

/-- Last character consumed so far, falling back to the character preceding
the match attempt; used to evaluate `\b`. -/
def lastPrev (prev : Option Char) (c : List Char) : Option Char :=
  match c.getLast? with
  | some x => some x
  | none => prev

/-- All ways the regex can match a prefix of `s`, as `(consumed, rest)` pairs
listed in Python's backtracking priority order (greedy quantifiers produce the
longest alternative first).  `prev` is the character just before `s`. -/
def mrun : RE → Option Char → List Char → List (List Char × List Char)
  | RE.eps, _, s => [([], s)]
  | RE.cls p, _, s =>
    match s with
    | [] => []
    | c :: cs => if p c then [([c], cs)] else []
  | RE.seq a b, prev, s =>
    (mrun a prev s).flatMap fun pr =>
      (mrun b (lastPrev prev pr.1) pr.2).map fun qr => (pr.1 ++ qr.1, qr.2)
  | RE.opt a, prev, s => mrun a prev s ++ [([], s)]
  | RE.starCls p, _, s =>
    (List.range ((s.takeWhile p).length + 1)).reverse.map fun k => (s.take k, s.drop k)
  | RE.wb, prev, s =>
    if isWordOpt prev != isWordOpt s.head? then [([], s)] else []

/-- The backtracking engine's choice at one position: the first (highest
priority) alternative, if any. -/
def firstMatch (ms : List (List Char × List Char)) (pos : Nat) :
    Option (Nat × List Char × List Char) :=
  match ms with
  | pr :: _ => some (pos, pr.1, pr.2)
  | [] => none

/-- Leftmost match: scan forward from absolute position `pos` and return the
first position where the regex matches, together with the consumed characters
and the remaining suffix.  Mirrors how `re.finditer` finds each match. -/
def searchFrom (re : RE) : Option Char → List Char → Nat → Option (Nat × List Char × List Char)
  | prev, [], pos => firstMatch (mrun re prev []) pos
  | prev, ch :: rest, pos =>
    match firstMatch (mrun re prev (ch :: rest)) pos with
    | some res => some res
    | none => searchFrom re (some ch) rest (pos + 1)

/-- Non-overlapping left-to-right matches from position `pos`, as
`(start, matchedText)` pairs: the semantics of `re.finditer` (an empty match
advances the scan by one character). -/
def finditerAux (re : RE) : Option Char → List Char → Nat → Nat → List (Nat × List Char)
  | _, _, _, 0 => []
  | prev, s, pos, fuel + 1 =>
    match searchFrom re prev s pos with
    | none => []
    | some (i, c, r) =>
      match c with
      | [] =>
        match r with
        | [] => [(i, [])]
        | ch :: rest => (i, []) :: finditerAux re (some ch) rest (i + 1) fuel
      | _ :: _ => (i, c) :: finditerAux re c.getLast? r (i + c.length) fuel

/-- `list(re.finditer(pattern, s))` as `(start, matchedText)` pairs. -/
def reMatcher (re : RE) (s : List Char) : List (Nat × List Char) :=
  finditerAux re none s 0 (s.length + 1)

/-! ## The seven regex patterns of `PIIMasker.__init__` -/

/-- Literal character. -/
def chr (c : Char) : RE := RE.cls (· == c)

/-- `r₁r₂…rₙ`. -/
def reCat (l : List RE) : RE := l.foldr RE.seq RE.eps

/-- Greedy `p+` over a class. -/
def rePlus (p : Char → Bool) : RE := RE.seq (RE.cls p) (RE.starCls p)

/-- `r{n}`: exactly `n` copies. -/
def reExact (r : RE) : Nat → RE
  | 0 => RE.eps
  | n + 1 => RE.seq r (reExact r n)

/-- Greedy `r{0,n}`. -/
def reUpTo (r : RE) : Nat → RE
  | 0 => RE.eps
  | n + 1 => RE.opt (RE.seq r (reUpTo r n))

/-- Greedy `r{m,n}` (`m ≤ n`). -/
def reBetween (r : RE) (m n : Nat) : RE := RE.seq (reExact r m) (reUpTo r (n - m))

/-- `\d` -/
def digitC : Char → Bool := Char.isDigit

/-- `[a-zA-Z0-9._%+-]` (email local part). -/
def emailLocalChar (c : Char) : Bool :=
  c.isAlphanum || c == '.' || c == '_' || c == '%' || c == '+' || c == '-'

/-- `[a-zA-Z0-9.-]` (email domain). -/
def emailDomChar (c : Char) : Bool := c.isAlphanum || c == '.' || c == '-'

/-- `[\s-]` -/
def spaceDashChar (c : Char) : Bool := isSpaceChar c || c == '-'

/-- `[\s.-]` -/
def spaceDotDashChar (c : Char) : Bool := isSpaceChar c || c == '.' || c == '-'

/-- `[-_]` -/
def dashUnderscoreChar (c : Char) : Bool := c == '-' || c == '_'

/-- `[a-zA-Z0-9._%+-]+@[a-zA-Z0-9.-]+\.[a-zA-Z]{2,}` -/
def emailRE : RE :=
  reCat [rePlus emailLocalChar, chr '@', rePlus emailDomChar, chr '.',
         RE.cls Char.isAlpha, RE.cls Char.isAlpha, RE.starCls Char.isAlpha]

/-- `\b(\+\d{1,3}[\s-]?)?\(?\d{3}\)?[\s.-]?\d{3}[\s.-]?\d{4}\b` -/
def phoneRE : RE :=
  reCat [RE.wb,
         RE.opt (reCat [chr '+', reBetween (RE.cls digitC) 1 3, RE.opt (RE.cls spaceDashChar)]),
         RE.opt (chr '('), reExact (RE.cls digitC) 3, RE.opt (chr ')'),
         RE.opt (RE.cls spaceDotDashChar), reExact (RE.cls digitC) 3,
         RE.opt (RE.cls spaceDotDashChar), reExact (RE.cls digitC) 4, RE.wb]

/-- `\b\d{3}[-\s]?\d{2}[-\s]?\d{4}\b` -/
def ssnRE : RE :=
  reCat [RE.wb, reExact (RE.cls digitC) 3, RE.opt (RE.cls spaceDashChar),
         reExact (RE.cls digitC) 2, RE.opt (RE.cls spaceDashChar),
         reExact (RE.cls digitC) 4, RE.wb]

/-- `\b(?:\d{4}[-\s]?){3}\d{4}\b` -/
def ccRE : RE :=
  reCat [RE.wb, reExact (RE.seq (reExact (RE.cls digitC) 4) (RE.opt (RE.cls spaceDashChar))) 3,
         reExact (RE.cls digitC) 4, RE.wb]

/-- `\b\d{1,3}\.\d{1,3}\.\d{1,3}\.\d{1,3}\b` -/
def ipRE : RE :=
  reCat [RE.wb, reBetween (RE.cls digitC) 1 3, chr '.', reBetween (RE.cls digitC) 1 3,
         chr '.', reBetween (RE.cls digitC) 1 3, chr '.', reBetween (RE.cls digitC) 1 3, RE.wb]

/-- `\b[A-Z]{2,4}[-_]?\d{6,10}\b` -/
def userIdRE : RE :=
  reCat [RE.wb, reBetween (RE.cls Char.isUpper) 2 4, RE.opt (RE.cls dashUnderscoreChar),
         reBetween (RE.cls digitC) 6 10, RE.wb]

/-- `\b\d{10,16}\b` -/
def accountRE : RE :=
  reCat [RE.wb, reBetween (RE.cls digitC) 10 16, RE.wb]

/-! ## The masking engine (`PIIMasker.mask` / `PIIMasker.unmask`) -/

/-- An ordered pattern table: category label together with its match function. -/
abbrev PatTable := List (List Char × (List Char → List (Nat × List Char)))

/-- Dictionary lookup (`k in d` / `d[k]`): first entry with the given key. -/
def lookupFirst (m : List (List Char × List Char)) (k : List Char) : Option (List Char) :=
  match m with
  | [] => none
  | kv :: rest => if kv.1 = k then some kv.2 else lookupFirst rest k

/-- Python `d[k] = v`: replace the value in place if the key exists
(keeping its insertion position), otherwise append. -/
def dictInsert (m : List (List Char × List Char)) (k v : List Char) :
    List (List Char × List Char) :=
  match m with
  | [] => [(k, v)]
  | kv :: rest => if kv.1 = k then (k, v) :: rest else kv :: dictInsert rest k v

/-- `len([k for k in current_mapping if k.startswith(f'<{pii_type}_')])`. -/
def tokCount (ty : List Char) (cur : List (List Char × List Char)) : Nat :=
  (cur.filter fun kv => decide (('<' :: (ty ++ ['_'])) <+: kv.1)).length

/-- `f"<{pii_type}_{n}>"`. -/
def mkTok (ty : List Char) (n : Nat) : List Char :=
  '<' :: (ty ++ ('_' :: (Nat.toDigits 10 n ++ ['>'])))

/-- Engine state during one `mask` call: the working copy of the text, the
forward mapping `current_mapping` and the reverse index `reverse_mapping`. -/
structure MState where
  text : List Char
  cur : List (List Char × List Char)
  rev : List (List Char × List Char)

/-- One iteration of the inner loop of `PIIMasker.mask`: process a single
match `(start, value)`, reusing the token from the reverse index when the
value was seen before, then splice the token over the matched span
(`masked_text[:start] + token + masked_text[end:]`). -/
def maskStepM (ty : List Char) (st : MState) (m : Nat × List Char) : MState :=
  match lookupFirst st.rev m.2 with
  | some t =>
    { st with text := st.text.take m.1 ++ t ++ st.text.drop (m.1 + m.2.length) }
  | none =>
    let t := mkTok ty (tokCount ty st.cur + 1)
    { text := st.text.take m.1 ++ t ++ st.text.drop (m.1 + m.2.length),
      cur := dictInsert st.cur t m.2,
      rev := dictInsert st.rev m.2 t }

/-- One iteration of the outer loop of `PIIMasker.mask`: compute the matches
of one category on the current working copy and process them in reversed
order (`for i, match in enumerate(reversed(matches))`). -/
def maskCat (st : MState) (p : List Char × (List Char → List (Nat × List Char))) : MState :=
  ((p.2 st.text).reverse).foldl (maskStepM p.1) st

/-- Full state after `PIIMasker.mask` has processed every category. -/
def maskM (pats : PatTable) (text : List Char) : MState :=
  pats.foldl maskCat ⟨text, [], []⟩

/-- `PIIMasker.mask`: returns the masked text and the per-call mapping. -/
def mask (pats : PatTable) (text : List Char) :
    List Char × List (List Char × List Char) :=
  ((maskM pats text).text, (maskM pats text).cur)

/-- Scanner for Python `str.replace(pat, rep)`: replace every
non-overlapping occurrence, scanning left to right, without rescanning the
replacement text.  The `fuel` argument only makes the recursion structural;
each step removes at least one character, so `fuel = length of the text`
(supplied by `replaceAll`) never runs out. -/
def replaceAllAux (pat rep : List Char) : Nat → List Char → List Char
  | _, [] => if pat = [] then rep else []
  | 0, _ :: _ => []
  | fuel + 1, c :: s' =>
    if pat = [] then rep ++ c :: replaceAllAux pat rep fuel s'
    else if pat <+: (c :: s') then
      rep ++ replaceAllAux pat rep fuel ((c :: s').drop pat.length)
    else c :: replaceAllAux pat rep fuel s'

/-- Python `str.replace(pat, rep)`.  Like Python, an empty pattern inserts
the replacement at every position. -/
def replaceAll (s pat rep : List Char) : List Char := replaceAllAux pat rep s.length s

/-- `PIIMasker.unmask`: replace each token by its original value, iterating
the mapping in insertion order. -/
def unmask (text : List Char) (m : List (List Char × List Char)) : List Char :=
  m.foldl (fun r kv => replaceAll r kv.1 kv.2) text

/-- Pattern table of `customer_support_bot.py` (seven categories). -/
def botPats : PatTable :=
  [("EMAIL".toList, reMatcher emailRE),
   ("PHONE".toList, reMatcher phoneRE),
   ("SSN".toList, reMatcher ssnRE),
   ("CC".toList, reMatcher ccRE),
   ("IP".toList, reMatcher ipRE),
   ("USER_ID".toList, reMatcher userIdRE),
   ("ACCOUNT".toList, reMatcher accountRE)]

/-- Pattern table of `app.py` (five categories: no `USER_ID`, no `ACCOUNT`). -/
def appPats : PatTable :=
  [("EMAIL".toList, reMatcher emailRE),
   ("PHONE".toList, reMatcher phoneRE),
   ("SSN".toList, reMatcher ssnRE),
   ("CC".toList, reMatcher ccRE),
   ("IP".toList, reMatcher ipRE)]

/-! ## Well-formed tokens and the token grammar -/

/-- A well-formed token: `<…>` with no angle bracket inside, the shape of
every `<CATEGORY_N>` token the engine generates. -/
def WfTok (t : List Char) : Prop :=
  ∃ body, t = '<' :: (body ++ ['>']) ∧ '<' ∉ body ∧ '>' ∉ body

/-- Executable well-formedness check for the token body: every character up
to the final `>` is bracket-free. -/
def wfBody : List Char → Bool
  | [] => false
  | [c] => c == '>'
  | c :: d :: rest => !(c == '<' || c == '>') && wfBody (d :: rest)

/-- Executable well-formedness check for a token. -/
def wfTokB (t : List Char) : Bool :=
  match t with
  | [] => false
  | c :: rest => c == '<' && wfBody rest

/-! ## Segment model

An instrumented copy of `mask` that keeps the working text factored into
plain-text chunks and inserted tokens, and fails (returns `none`) whenever a
step would violate the conditions under which masking is invertible: a match
overlapping an already-inserted token, a matched value containing `<`, a
non-well-formed or colliding token, or an input text containing `<`.
`maskSegs` succeeding is the precise form of the spec's guard "text
containing only well-formed PII instances matching the defined categories".
-/

/-- A segment of the working copy: an untouched chunk of text, or a token
spliced in by a previous substitution. -/
inductive Seg where
  | chunk (c : List Char) : Seg
  | tok (t : List Char) : Seg
deriving DecidableEq

/-- The working text represented by a list of segments. -/
def flat (segs : List Seg) : List Char :=
  segs.flatMap fun sg =>
    match sg with
    | Seg.chunk c => c
    | Seg.tok t => t

/-- The original text represented by a list of segments, reading each token
slot back through the forward mapping. -/
def origFlat (m : List (List Char × List Char)) (segs : List Seg) : List Char :=
  segs.flatMap fun sg =>
    match sg with
    | Seg.chunk c => c
    | Seg.tok t => (lookupFirst m t).getD []

/-- Splice token `t` over the span `[i, i + v.length)` of the working text,
provided that span lies inside a single chunk and carries exactly `v`. -/
def segSplice : List Seg → Nat → List Char → List Char → Option (List Seg)
  | [], _, _, _ => none
  | Seg.chunk c :: rest, i, v, t =>
    if i + v.length ≤ c.length then
      if (c.drop i).take v.length = v then
        some (Seg.chunk (c.take i) :: Seg.tok t :: Seg.chunk (c.drop (i + v.length)) :: rest)
      else none
    else if c.length ≤ i then
      (segSplice rest (i - c.length) v t).map (Seg.chunk c :: ·)
    else none
  | Seg.tok t' :: rest, i, v, t =>
    if t'.length ≤ i then (segSplice rest (i - t'.length) v t).map (Seg.tok t' :: ·)
    else none

/-- State of the instrumented engine. -/
structure SegState where
  segs : List Seg
  cur : List (List Char × List Char)
  rev : List (List Char × List Char)

/-- Instrumented counterpart of `maskStepM`. -/
def stepSegs (ty : List Char) (st : SegState) (m : Nat × List Char) : Option SegState :=
  if '<' ∈ m.2 then none
  else
    match lookupFirst st.rev m.2 with
    | some t => (segSplice st.segs m.1 m.2 t).map fun segs' => { st with segs := segs' }
    | none =>
      let t := mkTok ty (tokCount ty st.cur + 1)
      if wfTokB t && (lookupFirst st.cur t).isNone then
        (segSplice st.segs m.1 m.2 t).map fun segs' =>
          ⟨segs', st.cur ++ [(t, m.2)], st.rev ++ [(m.2, t)]⟩
      else none

/-- Instrumented counterpart of `maskCat`. -/
def catSegs (st : SegState) (p : List Char × (List Char → List (Nat × List Char))) :
    Option SegState :=
  ((p.2 (flat st.segs)).reverse).foldl
    (fun o m => o.bind fun s => stepSegs p.1 s m) (some st)

/-- Instrumented counterpart of `mask`. -/
def maskSegs (pats : PatTable) (text : List Char) : Option SegState :=
  if '<' ∈ text then none
  else pats.foldl (fun o p => o.bind fun st => catSegs st p)
    (some ⟨[Seg.chunk text], [], []⟩)

/-! ## Checked model for the safety claim

A copy of `mask` in which each splice first checks that the match span is in
bounds and that the matched value really is the text at that span — the
implicit preconditions of `masked_text[:start] + token + masked_text[end:]`.
-/

/-- Checked counterpart of `maskStepM`. -/
def maskCheckedStep (ty : List Char) (st : MState) (m : Nat × List Char) : Option MState :=
  if m.1 + m.2.length ≤ st.text.length ∧ (st.text.drop m.1).take m.2.length = m.2 then
    some (maskStepM ty st m)
  else none

/-- Checked counterpart of `maskCat`. -/
def maskCheckedCat (st : MState) (p : List Char × (List Char → List (Nat × List Char))) :
    Option MState :=
  ((p.2 st.text).reverse).foldl
    (fun o m => o.bind fun s => maskCheckedStep p.1 s m) (some st)

/-- Checked counterpart of `mask`. -/
def maskChecked (pats : PatTable) (text : List Char) : Option MState :=
  pats.foldl (fun o p => o.bind fun st => maskCheckedCat st p) (some ⟨text, [], []⟩)

/-! ## Parsing a text into segments (for the unmask algebra) -/

/-- Scanner state machine turning a text into chunk/token segments; fails if
some `<` is not closed by `>` before the next `<` or the end of the text.
`acc` holds the current chunk or partial token reversed; the flag tells
whether we are inside a token. -/
def t2s : List Char → List Char → Bool → Option (List Seg)
  | [], acc, false => some [Seg.chunk acc.reverse]
  | [], _, true => none
  | c :: r, acc, false =>
    if c = '<' then (t2s r ['<'] true).map fun segs => Seg.chunk acc.reverse :: segs
    else t2s r (c :: acc) false
  | c :: r, acc, true =>
    if c = '<' then none
    else if c = '>' then (t2s r [] false).map fun segs => Seg.tok (acc.reverse ++ ['>']) :: segs
    else t2s r (c :: acc) true

/-- Parse a text into alternating chunks and well-formed tokens; succeeds
exactly when every `<` in the text opens a well-formed token. -/
def textToSegs (s : List Char) : Option (List Seg) := t2s s [] false

/-- The well-formed tokens occurring in a text (empty when parsing fails). -/
def textTokens (s : List Char) : List (List Char) :=
  ((textToSegs s).getD []).filterMap fun sg =>
    match sg with
    | Seg.tok t => some t
    | Seg.chunk _ => none

/-- Replace one token by a chunk in a segment (the effect of a single
`str.replace` pass on a segmented text). -/
def substTok (k v : List Char) : Seg → Seg
  | Seg.tok t => if t = k then Seg.chunk v else Seg.tok t
  | sg => sg

/-- Resolve a segment through a mapping: a token with an entry becomes its
original value, everything else is untouched. -/
def resolveSeg (m : List (List Char × List Char)) : Seg → Seg
  | Seg.tok t =>
    match lookupFirst m t with
    | some v => Seg.chunk v
    | none => Seg.tok t
  | sg => sg

/-- Invariant of the instrumented engine relative to the original text:
chunks are bracket-free, every inserted token is a well-formed key of the
forward mapping, keys are distinct, values are bracket-free, the reverse
index points back into the forward mapping, and reading the token slots back
through the forward mapping reconstructs the original text. -/
structure SegInv (text₀ : List Char) (st : SegState) : Prop where
  chunks : ∀ c, Seg.chunk c ∈ st.segs → '<' ∉ c
  toks : ∀ t, Seg.tok t ∈ st.segs → WfTok t
  toksCur : ∀ t, Seg.tok t ∈ st.segs → (lookupFirst st.cur t).isSome = true
  keysNodup : (st.cur.map Prod.fst).Nodup
  keysWf : ∀ kv ∈ st.cur, WfTok kv.1
  valsLt : ∀ kv ∈ st.cur, '<' ∉ kv.2
  orig : origFlat st.cur st.segs = text₀
  revCur : ∀ vt ∈ st.rev, (vt.2, vt.1) ∈ st.cur

/-- Validity of a match list against the scanned text: every match is the
exact, in-bounds slice it claims to be, and matches are ordered left to
right without overlaps — the guarantees `re.finditer` provides. -/
def ValidMatches (ms : List (Nat × List Char)) (s : List Char) : Prop :=
  (∀ m ∈ ms, m.1 + m.2.length ≤ s.length ∧ (s.drop m.1).take m.2.length = m.2) ∧
  ms.Pairwise (fun a b => a.1 + a.2.length ≤ b.1)

/-! ## Basic lemmas: tokens, lookups, `replaceAll` -/

theorem wfBody_iff (l : List Char) :
    wfBody l = true ↔ ∃ b, l = b ++ ['>'] ∧ '<' ∉ b ∧ '>' ∉ b := by
  induction l with
  | nil =>
    simp only [wfBody]
    constructor
    · intro h; exact absurd h (by simp)
    · rintro ⟨b, hb, -, -⟩
      exact absurd hb.symm (by simp)
  | cons c rest ih =>
    cases rest with
    | nil =>
      simp only [wfBody, beq_iff_eq]
      constructor
      · intro h; exact ⟨[], by simp [h], by simp, by simp⟩
      · rintro ⟨b, hb, -, -⟩
        cases b with
        | nil => simpa using hb
        | cons x xs =>
          simp only [List.cons_append, List.cons.injEq] at hb
          exact absurd hb.2.symm (by simp)
    | cons d rest' =>
      simp only [wfBody, Bool.and_eq_true, Bool.not_eq_true', Bool.or_eq_false_iff,
        beq_eq_false_iff_ne, ne_eq, ih]
      constructor
      · rintro ⟨⟨hc1, hc2⟩, b', hb', h1, h2⟩
        refine ⟨c :: b', by simp [hb'], ?_, ?_⟩
        · simp only [List.mem_cons, not_or]
          exact ⟨fun h => hc1 h.symm, h1⟩
        · simp only [List.mem_cons, not_or]
          exact ⟨fun h => hc2 h.symm, h2⟩
      · rintro ⟨b, hb, h1, h2⟩
        cases b with
        | nil => simp at hb
        | cons x xs =>
          simp only [List.cons_append, List.cons.injEq] at hb
          obtain ⟨rfl, hb2⟩ := hb
          simp only [List.mem_cons, not_or] at h1 h2
          exact ⟨⟨fun h => h1.1 h.symm, fun h => h2.1 h.symm⟩, xs, hb2, h1.2, h2.2⟩

theorem wfTokB_iff (t : List Char) : wfTokB t = true ↔ WfTok t := by
  cases t with
  | nil =>
    simp only [wfTokB, WfTok]
    constructor
    · intro h; exact absurd h (by simp)
    · rintro ⟨b, hb, -, -⟩; exact absurd hb (by simp)
  | cons c rest =>
    simp only [wfTokB, Bool.and_eq_true, beq_iff_eq, wfBody_iff, WfTok]
    constructor
    · rintro ⟨rfl, b, rfl, h1, h2⟩; exact ⟨b, rfl, h1, h2⟩
    · rintro ⟨b, hb, h1, h2⟩
      simp only [List.cons.injEq] at hb
      exact ⟨hb.1, b, hb.2, h1, h2⟩

instance : DecidablePred WfTok := fun t => decidable_of_iff _ (wfTokB_iff t)

theorem WfTok.ne_nil {t : List Char} (h : WfTok t) : t ≠ [] := by
  obtain ⟨b, rfl, -, -⟩ := h; simp

theorem WfTok.head_lt {t : List Char} (h : WfTok t) : ∃ tb, t = '<' :: tb := by
  obtain ⟨b, rfl, -, -⟩ := h; exact ⟨b ++ ['>'], rfl⟩

/-- Two bracket-free bodies closed by `>` that start the same string are
equal: the first `>` is unique. -/
theorem body_gt_eq {b1 b2 u w : List Char} (h1 : '>' ∉ b1) (h2 : '>' ∉ b2)
    (heq : b1 ++ '>' :: u = b2 ++ '>' :: w) : b1 = b2 ∧ u = w := by
  induction b1 generalizing b2 with
  | nil =>
    cases b2 with
    | nil => exact ⟨rfl, by simpa using heq⟩
    | cons c b2' =>
      simp only [List.nil_append, List.cons_append, List.cons.injEq] at heq
      exact absurd (show '>' ∈ c :: b2' by rw [heq.1]; exact List.mem_cons_self _ _) h2
  | cons c b1' ih =>
    cases b2 with
    | nil =>
      simp only [List.cons_append, List.nil_append, List.cons.injEq] at heq
      exact absurd (show '>' ∈ c :: b1' by rw [heq.1]; exact List.mem_cons_self _ _) h1
    | cons d b2' =>
      simp only [List.cons_append, List.cons.injEq] at heq
      obtain ⟨rfl, heq2⟩ := heq
      have := ih (fun hm => h1 (List.mem_cons_of_mem _ hm))
        (fun hm => h2 (List.mem_cons_of_mem _ hm)) heq2
      exact ⟨by rw [this.1], this.2⟩

/-- A well-formed token that is a prefix of a well-formed token followed by
anything must be that token. -/
theorem wfTok_prefix_eq {k t r : List Char} (hk : WfTok k) (ht : WfTok t)
    (hpre : k <+: t ++ r) : k = t := by
  obtain ⟨bk, rfl, -, hk2⟩ := hk
  obtain ⟨bt, rfl, -, ht2⟩ := ht
  obtain ⟨u, hu⟩ := hpre
  have hu2 : bk ++ '>' :: u = bt ++ '>' :: r := by
    simpa using hu
  have := body_gt_eq hk2 ht2 hu2
  rw [this.1]

/-! ### lookup and dict lemmas -/

theorem lookupFirst_eq_none {m : List (List Char × List Char)} {k : List Char} :
    lookupFirst m k = none ↔ ∀ kv ∈ m, kv.1 ≠ k := by
  induction m with
  | nil => simp [lookupFirst]
  | cons kv rest ih =>
    by_cases h : kv.1 = k
    · simp [lookupFirst, h]
    · simp [lookupFirst, h, ih]

theorem mem_of_lookupFirst {m : List (List Char × List Char)} {k v : List Char}
    (h : lookupFirst m k = some v) : (k, v) ∈ m := by
  induction m with
  | nil => simp [lookupFirst] at h
  | cons kv rest ih =>
    by_cases hk : kv.1 = k
    · simp only [lookupFirst, if_pos hk] at h
      have hv : kv.2 = v := by injection h
      have hkv : (k, v) = kv := by rw [← hk, ← hv]
      rw [hkv]
      exact List.mem_cons_self _ _
    · simp only [lookupFirst, if_neg hk] at h
      exact List.mem_cons_of_mem _ (ih h)

theorem lookupFirst_mem_of_nodup {m : List (List Char × List Char)} {k v : List Char}
    (hnd : (m.map Prod.fst).Nodup) (hm : (k, v) ∈ m) : lookupFirst m k = some v := by
  induction m with
  | nil => simp at hm
  | cons kv rest ih =>
    simp only [List.map_cons, List.nodup_cons, List.mem_map] at hnd
    rcases List.mem_cons.mp hm with h | h
    · rw [← h]; simp [lookupFirst]
    · have hne : kv.1 ≠ k := by
        intro he
        exact hnd.1 ⟨(k, v), h, by simp [he]⟩
      simp only [lookupFirst, if_neg hne]
      exact ih hnd.2 h

theorem lookupFirst_append_of_some {m₁ m₂ : List (List Char × List Char)}
    {k v : List Char} (h : lookupFirst m₁ k = some v) :
    lookupFirst (m₁ ++ m₂) k = some v := by
  induction m₁ with
  | nil => simp [lookupFirst] at h
  | cons kv rest ih =>
    by_cases hk : kv.1 = k
    · simp only [lookupFirst, if_pos hk] at h ⊢; exact h
    · simp only [lookupFirst, if_neg hk] at h ⊢; exact ih h

theorem lookupFirst_append_of_none {m₁ m₂ : List (List Char × List Char)}
    {k : List Char} (h : lookupFirst m₁ k = none) :
    lookupFirst (m₁ ++ m₂) k = lookupFirst m₂ k := by
  induction m₁ with
  | nil => simp
  | cons kv rest ih =>
    by_cases hk : kv.1 = k
    · simp [lookupFirst, hk] at h
    · simp only [lookupFirst, if_neg hk] at h ⊢; exact ih h

theorem dictInsert_of_absent {m : List (List Char × List Char)} {k v : List Char}
    (h : lookupFirst m k = none) : dictInsert m k v = m ++ [(k, v)] := by
  induction m with
  | nil => simp [dictInsert]
  | cons kv rest ih =>
    by_cases hk : kv.1 = k
    · simp [lookupFirst, hk] at h
    · simp only [lookupFirst, if_neg hk] at h
      simp [dictInsert, hk, ih h]

/-! ### `replaceAll` over segmented text -/

@[simp] theorem flat_nil : flat [] = [] := rfl

@[simp] theorem flat_chunk_cons (c : List Char) (segs : List Seg) :
    flat (Seg.chunk c :: segs) = c ++ flat segs := by simp [flat]

@[simp] theorem flat_tok_cons (t : List Char) (segs : List Seg) :
    flat (Seg.tok t :: segs) = t ++ flat segs := by simp [flat]

theorem replaceAllAux_congr (pat rep : List Char) :
    ∀ (f1 f2 : Nat) (s : List Char), s.length ≤ f1 → s.length ≤ f2 →
      replaceAllAux pat rep f1 s = replaceAllAux pat rep f2 s := by
  intro f1
  induction f1 with
  | zero =>
    intro f2 s h1 h2
    obtain rfl : s = [] := List.eq_nil_of_length_eq_zero (Nat.le_zero.mp h1)
    cases f2 <;> rfl
  | succ f1 ih =>
    intro f2 s h1 h2
    cases s with
    | nil => cases f2 <;> rfl
    | cons c s' =>
      cases f2 with
      | zero => simp at h2
      | succ f2' =>
        simp only [List.length_cons] at h1 h2
        simp only [replaceAllAux]
        by_cases hp : pat = []
        · simp only [if_pos hp]
          rw [ih f2' s' (by omega) (by omega)]
        · simp only [if_neg hp]
          by_cases hpre : pat <+: (c :: s')
          · simp only [if_pos hpre]
            have hlp : 0 < pat.length := List.length_pos.mpr hp
            have hlen : ((c :: s').drop pat.length).length ≤ f1 := by
              simp only [List.length_drop, List.length_cons]
              omega
            have hlen2 : ((c :: s').drop pat.length).length ≤ f2' := by
              simp only [List.length_drop, List.length_cons]
              omega
            rw [ih f2' _ hlen hlen2]
          · simp only [if_neg hpre]
            rw [ih f2' s' (by omega) (by omega)]

theorem replaceAll_cons_eq (c : Char) (s' pat rep : List Char) :
    replaceAll (c :: s') pat rep =
      if pat = [] then rep ++ c :: replaceAll s' pat rep
      else if pat <+: (c :: s') then
        rep ++ replaceAll ((c :: s').drop pat.length) pat rep
      else c :: replaceAll s' pat rep := by
  show replaceAllAux pat rep (c :: s').length (c :: s') = _
  rw [List.length_cons]
  simp only [replaceAllAux]
  by_cases hp : pat = []
  · simp [hp, replaceAll]
  · simp only [if_neg hp]
    by_cases hpre : pat <+: (c :: s')
    · simp only [if_pos hpre]
      congr 1
      show replaceAllAux pat rep s'.length ((c :: s').drop pat.length)
        = replaceAllAux pat rep ((c :: s').drop pat.length).length ((c :: s').drop pat.length)
      apply replaceAllAux_congr pat rep s'.length _ _ ?_ (Nat.le_refl _)
      simp only [List.length_drop, List.length_cons]
      have := List.length_pos.mpr hp
      omega
    · simp [hpre, replaceAll]

@[simp] theorem replaceAll_nil {k v : List Char} (hk : k ≠ []) :
    replaceAll [] k v = [] := by
  show (if k = [] then v else []) = []
  simp [hk]

/-- Scanning a bracket-free chunk never matches a token pattern. -/
theorem replaceAll_chunk {c r k v : List Char} (hc : '<' ∉ c)
    (hk : ∃ kb, k = '<' :: kb) :
    replaceAll (c ++ r) k v = c ++ replaceAll r k v := by
  obtain ⟨kb, rfl⟩ := hk
  induction c with
  | nil => simp
  | cons ch c' ih =>
    have hch : ch ≠ '<' := fun he => hc (he ▸ List.mem_cons_self ch c')
    have hnp : ¬('<' :: kb <+: ch :: (c' ++ r)) := by
      intro hp
      exact hch ((List.cons_prefix_cons.mp hp).1.symm)
    have hstep : replaceAll ((ch :: c') ++ r) ('<' :: kb) v
        = ch :: replaceAll (c' ++ r) ('<' :: kb) v := by
      rw [List.cons_append, replaceAll_cons_eq]
      rw [if_neg (by simp : ¬('<' :: kb = [])), if_neg hnp]
    rw [hstep, ih (fun hm => hc (List.mem_cons_of_mem _ hm))]
    simp

/-- Replacement fires exactly at an occurrence of the pattern. -/
theorem replaceAll_head {k r v : List Char} (hk : k ≠ []) :
    replaceAll (k ++ r) k v = v ++ replaceAll r k v := by
  cases k with
  | nil => exact absurd rfl hk
  | cons kh kt =>
    have hp : (kh :: kt) <+: (kh :: (kt ++ r)) := by
      rw [← List.cons_append]; exact List.prefix_append _ _
    have hstep : replaceAll ((kh :: kt) ++ r) (kh :: kt) v
        = v ++ replaceAll ((kh :: (kt ++ r)).drop (kh :: kt).length) (kh :: kt) v := by
      rw [List.cons_append, replaceAll_cons_eq]
      rw [if_neg (by simp : ¬(kh :: kt = [])), if_pos hp]
    rw [hstep]
    congr 1
    rw [← List.cons_append, List.drop_left]

/-- Scanning a different well-formed token never matches the pattern. -/
theorem replaceAll_tok {k t v : List Char} (hk : WfTok k) (ht : WfTok t)
    (hne : k ≠ t) (r : List Char) : replaceAll (t ++ r) k v = t ++ replaceAll r k v := by
  obtain ⟨bt, rfl, hbt1, hbt2⟩ := ht
  have htt : WfTok ('<' :: (bt ++ ['>'])) := ⟨bt, rfl, hbt1, hbt2⟩
  have hknil : ¬(k = []) := hk.ne_nil
  have hnp : ¬(k <+: '<' :: ((bt ++ ['>']) ++ r)) := by
    intro hp
    apply hne
    apply wfTok_prefix_eq hk htt
    simpa using hp
  have hstep : replaceAll (('<' :: (bt ++ ['>'])) ++ r) k v
      = '<' :: replaceAll ((bt ++ ['>']) ++ r) k v := by
    rw [List.cons_append, replaceAll_cons_eq]
    rw [if_neg hknil, if_neg hnp]
  rw [hstep, replaceAll_chunk (by simp [hbt1]) hk.head_lt]
  simp

/-- One `str.replace` pass over a segmented text substitutes exactly the
slots holding the replaced token. -/
theorem replaceAll_flat {segs : List Seg} {k v : List Char} (hk : WfTok k)
    (hchunk : ∀ c, Seg.chunk c ∈ segs → '<' ∉ c)
    (htok : ∀ t, Seg.tok t ∈ segs → WfTok t) :
    replaceAll (flat segs) k v = flat (segs.map (substTok k v)) := by
  induction segs with
  | nil => simp [hk.ne_nil]
  | cons sg rest ih =>
    have ih' := ih (fun c hc => hchunk c (List.mem_cons_of_mem _ hc))
      (fun t htm => htok t (List.mem_cons_of_mem _ htm))
    cases sg with
    | chunk c =>
      rw [flat_chunk_cons, replaceAll_chunk (hchunk c (List.mem_cons_self _ _)) hk.head_lt, ih']
      simp [substTok]
    | tok t =>
      by_cases he : t = k
      · subst he
        rw [flat_tok_cons, replaceAll_head hk.ne_nil, ih']
        simp [substTok]
      · rw [flat_tok_cons, replaceAll_tok hk (htok t (List.mem_cons_self _ _)) (Ne.symm he), ih']
        simp [substTok, he]

theorem resolveSeg_nil (segs : List Seg) : segs.map (resolveSeg []) = segs := by
  induction segs with
  | nil => rfl
  | cons sg rest ih =>
    cases sg with
    | chunk c => simp [resolveSeg, ih]
    | tok t => simp [resolveSeg, lookupFirst, ih]

/-- `unmask` over a segmented text resolves each token slot through the
mapping and leaves everything else untouched. -/
theorem unmask_flat {m : List (List Char × List Char)} {segs : List Seg}
    (hchunk : ∀ c, Seg.chunk c ∈ segs → '<' ∉ c)
    (htok : ∀ t, Seg.tok t ∈ segs → WfTok t)
    (hkeys : ∀ kv ∈ m, WfTok kv.1)
    (hvals : ∀ kv ∈ m, '<' ∉ kv.2) :
    unmask (flat segs) m = flat (segs.map (resolveSeg m)) := by
  induction m generalizing segs with
  | nil => simp [unmask, resolveSeg_nil]
  | cons kv m' ih =>
    have hwk : WfTok kv.1 := hkeys kv (List.mem_cons_self _ _)
    have hvk : '<' ∉ kv.2 := hvals kv (List.mem_cons_self _ _)
    have h1 : unmask (flat segs) (kv :: m') =
        unmask (replaceAll (flat segs) kv.1 kv.2) m' := rfl
    rw [h1, replaceAll_flat hwk hchunk htok]
    have hc' : ∀ c, Seg.chunk c ∈ segs.map (substTok kv.1 kv.2) → '<' ∉ c := by
      intro c hc
      obtain ⟨sg, hsg, heq⟩ := List.mem_map.mp hc
      cases sg with
      | chunk c0 =>
        simp only [substTok] at heq
        obtain rfl : c0 = c := by injection heq
        exact hchunk _ hsg
      | tok t =>
        by_cases he : t = kv.1
        · simp only [substTok, if_pos he] at heq
          obtain rfl : kv.2 = c := by injection heq
          exact hvk
        · simp only [substTok, if_neg he] at heq
          exact absurd heq (by simp)
    have ht' : ∀ t, Seg.tok t ∈ segs.map (substTok kv.1 kv.2) → WfTok t := by
      intro t htm
      obtain ⟨sg, hsg, heq⟩ := List.mem_map.mp htm
      cases sg with
      | chunk c0 => simp only [substTok] at heq; exact absurd heq (by simp)
      | tok t0 =>
        by_cases he : t0 = kv.1
        · simp only [substTok, if_pos he] at heq; exact absurd heq (by simp)
        · simp only [substTok, if_neg he] at heq
          obtain rfl : t0 = t := by injection heq
          exact htok _ hsg
    rw [ih hc' ht' (fun x hx => hkeys x (List.mem_cons_of_mem _ hx))
      (fun x hx => hvals x (List.mem_cons_of_mem _ hx))]
    rw [List.map_map]
    congr 1
    apply List.map_congr_left
    intro sg hsg
    cases sg with
    | chunk c => simp [substTok, resolveSeg]
    | tok t =>
      by_cases he : t = kv.1
      · simp [substTok, resolveSeg, he, lookupFirst]
      · have hne : ¬(kv.1 = t) := fun h => he h.symm
        simp only [Function.comp_apply, substTok, if_neg he, resolveSeg]
        have hlk : lookupFirst (kv :: m') t = lookupFirst m' t := by
          simp [lookupFirst, hne]
        rw [hlk]

/-! ### Parsing texts into segments -/

theorem t2s_spec (s : List Char) : ∀ (acc : List Char) (mode : Bool) (segs : List Seg),
    t2s s acc mode = some segs →
    (if mode then ∃ intr, acc = intr ++ ['<'] ∧ '<' ∉ intr ∧ '>' ∉ intr else '<' ∉ acc) →
    flat segs = acc.reverse ++ s ∧
    (∀ c, Seg.chunk c ∈ segs → '<' ∉ c) ∧
    (∀ t, Seg.tok t ∈ segs → WfTok t) := by
  induction s with
  | nil =>
    intro acc mode segs h hacc
    cases mode with
    | false =>
      simp only [t2s, Option.some.injEq] at h
      subst h
      simp only [if_neg (by simp : ¬(false = true))] at hacc
      refine ⟨by simp, ?_, by simp⟩
      intro c hc
      simp only [List.mem_singleton, Seg.chunk.injEq] at hc
      subst hc
      simpa using hacc
    | true => simp [t2s] at h
  | cons c r ih =>
    intro acc mode segs h hacc
    cases mode with
    | false =>
      simp only [if_neg (by simp : ¬(false = true))] at hacc
      by_cases hc : c = '<'
      · subst hc
        simp only [t2s, if_pos rfl] at h
        obtain ⟨segs', hs', rfl⟩ := Option.map_eq_some'.mp h
        obtain ⟨hf, hch, htk⟩ := ih ['<'] true segs' hs'
          (by simp only [if_pos rfl]; exact ⟨[], rfl, by simp, by simp⟩)
        refine ⟨by simp [hf], ?_, ?_⟩
        · intro c0 hc0
          rcases List.mem_cons.mp hc0 with he | hm
          · obtain rfl : acc.reverse = c0 := by injection he.symm
            simpa using hacc
          · exact hch c0 hm
        · intro t ht
          rcases List.mem_cons.mp ht with he | hm
          · exact absurd he.symm (by simp)
          · exact htk t hm
      · simp only [t2s, if_neg hc] at h
        obtain ⟨hf, hch, htk⟩ := ih (c :: acc) false segs h
          (by simp only [if_neg (by simp : ¬(false = true))]
              simp only [List.mem_cons, not_or]
              exact ⟨fun he => hc he.symm, hacc⟩)
        exact ⟨by simpa using hf, hch, htk⟩
    | true =>
      simp only [if_pos rfl] at hacc
      obtain ⟨intr, rfl, hi1, hi2⟩ := hacc
      by_cases hc : c = '<'
      · simp [t2s, hc] at h
      · by_cases hc2 : c = '>'
        · subst hc2
          simp only [t2s, if_neg hc, if_pos rfl] at h
          obtain ⟨segs', hs', rfl⟩ := Option.map_eq_some'.mp h
          obtain ⟨hf, hch, htk⟩ := ih [] false segs' hs'
            (by simp)
          refine ⟨by simp [hf], ?_, ?_⟩
          · intro c0 hc0
            rcases List.mem_cons.mp hc0 with he | hm
            · exact absurd he.symm (by simp)
            · exact hch c0 hm
          · intro t ht
            rcases List.mem_cons.mp ht with he | hm
            · obtain rfl : (intr ++ ['<']).reverse ++ ['>'] = t := by injection he.symm
              refine ⟨intr.reverse, by simp, by simpa using hi1, by simpa using hi2⟩
            · exact htk t hm
        · simp only [t2s, if_neg hc, if_neg hc2] at h
          obtain ⟨hf, hch, htk⟩ := ih (c :: (intr ++ ['<'])) true segs h
            (by simp only [if_pos rfl]
                refine ⟨c :: intr, by simp, ?_, ?_⟩
                · simp only [List.mem_cons, not_or]
                  exact ⟨fun he => hc he.symm, hi1⟩
                · simp only [List.mem_cons, not_or]
                  exact ⟨fun he => hc2 he.symm, hi2⟩)
          exact ⟨by simpa using hf, hch, htk⟩

/-- When `textToSegs` succeeds, it produces a faithful factoring of the text
into bracket-free chunks and well-formed tokens. -/
theorem textToSegs_spec {s : List Char} {segs : List Seg}
    (h : textToSegs s = some segs) :
    flat segs = s ∧
    (∀ c, Seg.chunk c ∈ segs → '<' ∉ c) ∧
    (∀ t, Seg.tok t ∈ segs → WfTok t) := by
  have := t2s_spec s [] false segs h (by simp)
  simpa using this

/-! ### Lookup under permutations -/

theorem lookupFirst_perm {m₁ m₂ : List (List Char × List Char)} (hp : m₁.Perm m₂) :
    (m₁.map Prod.fst).Nodup → ∀ k, lookupFirst m₁ k = lookupFirst m₂ k := by
  induction hp with
  | nil => intro _ k; rfl
  | cons x h ih =>
    intro hnd k
    by_cases hx : x.1 = k
    · simp [lookupFirst, hx]
    · simp only [lookupFirst, if_neg hx]
      exact ih (by simpa using (List.nodup_cons.mp (by simpa using hnd)).2) k
  | swap x y l =>
    intro hnd k
    have hxy : y.1 ≠ x.1 := by
      simp only [List.map_cons, List.nodup_cons, List.mem_cons, List.mem_map,
        not_or] at hnd
      exact hnd.1.1
    by_cases hy : y.1 = k
    · have hx : ¬(x.1 = k) := fun he => hxy (hy.trans he.symm)
      simp [lookupFirst, hy, hx]
    · by_cases hx : x.1 = k
      · simp [lookupFirst, hy, hx]
      · simp [lookupFirst, hy, hx]
  | trans h12 h23 ih12 ih23 =>
    intro hnd k
    rw [ih12 hnd k]
    exact ih23 ((List.Perm.nodup_iff (h12.map Prod.fst)).mp hnd) k

/-! ### Occurrences of unknown tokens survive `replaceAll` -/

/-- Replacing a well-formed token `k` cannot touch an occurrence of a
different well-formed token `u`. -/
theorem replaceAll_infix {u k : List Char} (hu : WfTok u) (hk : WfTok k)
    (hne : k ≠ u) (v : List Char) :
    ∀ (a b : List Char), ∃ a' b', replaceAll (a ++ (u ++ b)) k v = a' ++ (u ++ b') := by
  have main : ∀ (n : Nat) (a b : List Char), a.length = n →
      ∃ a' b', replaceAll (a ++ (u ++ b)) k v = a' ++ (u ++ b') := by
    intro n
    induction n using Nat.strong_induction_on with
    | _ n ih =>
      intro a b hlen
      cases a with
      | nil =>
        refine ⟨[], replaceAll b k v, ?_⟩
        simpa using replaceAll_tok hk hu hne b
      | cons c a₂ =>
        by_cases hp : k <+: (c :: a₂) ++ (u ++ b)
        · have hlenk : k.length ≤ (c :: a₂).length := by
            by_contra hgt
            push_neg at hgt
            have hpa : (c :: a₂) <+: (c :: a₂) ++ (u ++ b) := List.prefix_append _ _
            have hak : (c :: a₂) <+: k :=
              List.prefix_of_prefix_length_le hpa hp (Nat.le_of_lt hgt)
            obtain ⟨k₂, hk₂⟩ := hak
            have hk₂ne : k₂ ≠ [] := by
              intro he
              rw [he, List.append_nil] at hk₂
              rw [← hk₂] at hgt
              exact Nat.lt_irrefl _ hgt
            have hk₂pre : k₂ <+: (u ++ b) := by
              have := hp
              rw [← hk₂] at this
              exact ((List.prefix_append_right_inj (c :: a₂)).mp this)
            obtain ⟨bu, hub, -, -⟩ := hu
            have hk₂head : ∃ k₃, k₂ = '<' :: k₃ := by
              cases k₂ with
              | nil => exact absurd rfl hk₂ne
              | cons d k₃ =>
                rw [hub] at hk₂pre
                exact ⟨k₃, by rw [(List.cons_prefix_cons.mp hk₂pre).1]⟩
            obtain ⟨k₃, rfl⟩ := hk₂head
            obtain ⟨bk, hkk, hbk1, -⟩ := hk
            rw [hkk] at hk₂
            simp only [List.cons_append, List.cons.injEq] at hk₂
            have : '<' ∈ bk ++ ['>'] := by
              rw [← hk₂.2]
              exact List.mem_append_right _ (List.mem_cons_self _ _)
            rcases List.mem_append.mp this with hm | hm
            · exact hbk1 hm
            · simp at hm
          have hka : k <+: (c :: a₂) :=
            List.prefix_of_prefix_length_le hp (List.prefix_append _ _) hlenk
          obtain ⟨a₃, ha₃⟩ := hka
          rw [← ha₃, List.append_assoc, replaceAll_head hk.ne_nil]
          have hlt : a₃.length < n := by
            have : k.length + a₃.length = n := by
              rw [← hlen, ← ha₃, List.length_append]
            have hkpos : 0 < k.length := List.length_pos.mpr hk.ne_nil
            omega
          obtain ⟨a', b', hab⟩ := ih a₃.length hlt a₃ b rfl
          exact ⟨v ++ a', b', by rw [hab, List.append_assoc]⟩
        · have hstep : replaceAll ((c :: a₂) ++ (u ++ b)) k v
              = c :: replaceAll (a₂ ++ (u ++ b)) k v := by
            rw [List.cons_append, replaceAll_cons_eq]
            rw [if_neg hk.ne_nil, if_neg (by rw [← List.cons_append]; exact hp)]
          obtain ⟨a', b', hab⟩ := ih a₂.length (by simp [← hlen]) a₂ b rfl
          exact ⟨c :: a', b', by rw [hstep, hab, List.cons_append]⟩
  intro a b
  exact main a.length a b rfl

/-- An occurrence of a well-formed token with no entry in the mapping
survives `unmask` verbatim. -/
theorem unmask_infix {u : List Char} {m : List (List Char × List Char)}
    (hu : WfTok u) (hkeys : ∀ kv ∈ m, WfTok kv.1)
    (hnot : ∀ kv ∈ m, kv.1 ≠ u) :
    ∀ (a b : List Char), ∃ a' b', unmask (a ++ (u ++ b)) m = a' ++ (u ++ b') := by
  induction m with
  | nil => intro a b; exact ⟨a, b, rfl⟩
  | cons kv m' ih =>
    intro a b
    obtain ⟨a₁, b₁, h₁⟩ := replaceAll_infix hu (hkeys kv (List.mem_cons_self _ _))
      (hnot kv (List.mem_cons_self _ _)) kv.2 a b
    have hstep : unmask (a ++ (u ++ b)) (kv :: m') =
        unmask (replaceAll (a ++ (u ++ b)) kv.1 kv.2) m' := rfl
    rw [hstep, h₁]
    exact ih (fun x hx => hkeys x (List.mem_cons_of_mem _ hx))
      (fun x hx => hnot x (List.mem_cons_of_mem _ hx)) a₁ b₁

/-! ### Splicing lemmas for the segment model -/

@[simp] theorem flat_append (l₁ l₂ : List Seg) : flat (l₁ ++ l₂) = flat l₁ ++ flat l₂ := by
  simp [flat]

@[simp] theorem origFlat_nil (m : List (List Char × List Char)) : origFlat m [] = [] := rfl

@[simp] theorem origFlat_append (m : List (List Char × List Char)) (l₁ l₂ : List Seg) :
    origFlat m (l₁ ++ l₂) = origFlat m l₁ ++ origFlat m l₂ := by
  simp [origFlat]

@[simp] theorem origFlat_chunk_cons (m : List (List Char × List Char)) (c : List Char)
    (segs : List Seg) : origFlat m (Seg.chunk c :: segs) = c ++ origFlat m segs := by
  simp [origFlat]

@[simp] theorem origFlat_tok_cons (m : List (List Char × List Char)) (t : List Char)
    (segs : List Seg) :
    origFlat m (Seg.tok t :: segs) = (lookupFirst m t).getD [] ++ origFlat m segs := by
  simp [origFlat]

/-- A successful `segSplice` locates the span inside a single chunk. -/
theorem segSplice_decomp : ∀ (segs : List Seg) (i : Nat) {v t : List Char}
    {segs' : List Seg}, segSplice segs i v t = some segs' →
    ∃ pre c j post,
      segs = pre ++ Seg.chunk c :: post ∧
      segs' = pre ++ Seg.chunk (c.take j) :: Seg.tok t ::
        Seg.chunk (c.drop (j + v.length)) :: post ∧
      j + v.length ≤ c.length ∧
      (c.drop j).take v.length = v ∧
      (flat pre).length + j = i := by
  intro segs
  induction segs with
  | nil => intro i v t segs' h; simp [segSplice] at h
  | cons sg rest ih =>
    intro i v t segs' h
    cases sg with
    | chunk c =>
      by_cases h1 : i + v.length ≤ c.length
      · by_cases h2 : (c.drop i).take v.length = v
        · simp only [segSplice, if_pos h1, if_pos h2, Option.some.injEq] at h
          exact ⟨[], c, i, rest, by simp, by simp [← h], h1, h2, by simp⟩
        · simp [segSplice, h1, h2] at h
      · by_cases h3 : c.length ≤ i
        · simp only [segSplice, if_neg h1, if_pos h3] at h
          obtain ⟨segs'', hs, rfl⟩ := Option.map_eq_some'.mp h
          obtain ⟨pre, c', j, post, e1, e2, e3, e4, e5⟩ := ih _ hs
          refine ⟨Seg.chunk c :: pre, c', j, post, by simp [e1], by simp [e2], e3, e4, ?_⟩
          simp only [flat_chunk_cons, List.length_append]
          omega
        · simp [segSplice, h1, h3] at h
    | tok t' =>
      by_cases h3 : t'.length ≤ i
      · simp only [segSplice, if_pos h3] at h
        obtain ⟨segs'', hs, rfl⟩ := Option.map_eq_some'.mp h
        obtain ⟨pre, c', j, post, e1, e2, e3, e4, e5⟩ := ih _ hs
        refine ⟨Seg.tok t' :: pre, c', j, post, by simp [e1], by simp [e2], e3, e4, ?_⟩
        simp only [flat_tok_cons, List.length_append]
        omega
      · simp [segSplice, h3] at h

/-- A successful `segSplice` changes the flattened text exactly the way the
engine's string splice `text[:i] + t + text[i + len(v):]` does. -/
theorem segSplice_flat {segs : List Seg} {i : Nat} {v t : List Char}
    {segs' : List Seg} (h : segSplice segs i v t = some segs') :
    flat segs' = (flat segs).take i ++ (t ++ (flat segs).drop (i + v.length)) := by
  obtain ⟨pre, c, j, post, e1, e2, e3, e4, e5⟩ := segSplice_decomp _ _ h
  subst e1
  subst e2
  simp only [flat_append, flat_chunk_cons, flat_tok_cons]
  have ht : (flat pre ++ (c ++ flat post)).take i = flat pre ++ c.take j := by
    rw [List.take_append_eq_append_take]
    congr 1
    · exact List.take_of_length_le (by omega)
    · rw [show i - (flat pre).length = j from by omega]
      exact List.take_append_of_le_length (by omega)
  have hd : (flat pre ++ (c ++ flat post)).drop (i + v.length)
      = c.drop (j + v.length) ++ flat post := by
    rw [List.drop_append_eq_append_drop]
    rw [show i + v.length - (flat pre).length = j + v.length from by omega]
    rw [List.drop_eq_nil_of_le (by omega), List.drop_append_eq_append_drop]
    rw [show j + v.length - c.length = 0 from by omega]
    simp
  rw [ht, hd]
  simp [List.append_assoc]

/-! ### Refinement: the instrumented model computes exactly what `mask` does -/

theorem stepSegs_refine {ty : List Char} {st : SegState} {m : Nat × List Char}
    {st' : SegState} (h : stepSegs ty st m = some st') :
    maskStepM ty ⟨flat st.segs, st.cur, st.rev⟩ m = ⟨flat st'.segs, st'.cur, st'.rev⟩ := by
  by_cases hlt : '<' ∈ m.2
  · simp [stepSegs, hlt] at h
  · simp only [stepSegs, if_neg hlt] at h
    cases hrev : lookupFirst st.rev m.2 with
    | some t =>
      rw [hrev] at h
      obtain ⟨segs', hsp, rfl⟩ := Option.map_eq_some'.mp h
      simp only [maskStepM, hrev]
      rw [segSplice_flat hsp]
      simp [List.append_assoc]
    | none =>
      rw [hrev] at h
      by_cases hck : (wfTokB (mkTok ty (tokCount ty st.cur + 1))
          && (lookupFirst st.cur (mkTok ty (tokCount ty st.cur + 1))).isNone) = true
      · rw [if_pos hck] at h
        obtain ⟨segs', hsp, rfl⟩ := Option.map_eq_some'.mp h
        have hcur : lookupFirst st.cur (mkTok ty (tokCount ty st.cur + 1)) = none := by
          have := (Bool.and_eq_true _ _).mp hck
          exact Option.isNone_iff_eq_none.mp this.2
        simp only [maskStepM, hrev]
        rw [segSplice_flat hsp, dictInsert_of_absent hcur, dictInsert_of_absent hrev]
        simp [List.append_assoc]
      · rw [if_neg hck] at h
        exact absurd h (by simp)

theorem foldl_obind_none {σ α : Type} (g : σ → α → Option σ) (l : List α) :
    l.foldl (fun o a => o.bind fun s => g s a) none = none := by
  induction l with
  | nil => rfl
  | cons a l ih => simpa using ih

theorem foldl_obind_refine {σ τ : Type} {α : Type} (g : σ → α → Option σ)
    (f : τ → α → τ) (rel : σ → τ)
    (hstep : ∀ s a s', g s a = some s' → f (rel s) a = rel s') :
    ∀ (l : List α) (s s' : σ),
      l.foldl (fun o a => o.bind fun x => g x a) (some s) = some s' →
      l.foldl f (rel s) = rel s' := by
  intro l
  induction l with
  | nil =>
    intro s s' h
    obtain rfl : s = s' := by simpa using h
    rfl
  | cons a l ih =>
    intro s s' h
    simp only [List.foldl_cons] at h
    rw [show ((some s).bind fun x => g x a) = g s a from rfl] at h
    cases hg : g s a with
    | none => rw [hg] at h; exact absurd (h ▸ foldl_obind_none g l) (by simp)
    | some s₁ =>
      rw [hg] at h
      rw [List.foldl_cons, hstep s a s₁ hg]
      exact ih s₁ s' h

theorem catSegs_refine {st : SegState} {p : List Char × (List Char → List (Nat × List Char))}
    {st' : SegState} (h : catSegs st p = some st') :
    maskCat ⟨flat st.segs, st.cur, st.rev⟩ p = ⟨flat st'.segs, st'.cur, st'.rev⟩ := by
  exact foldl_obind_refine (stepSegs p.1) (maskStepM p.1)
    (fun s => ⟨flat s.segs, s.cur, s.rev⟩)
    (fun s m s' hg => stepSegs_refine hg) _ st st' h

theorem maskSegs_refine {pats : PatTable} {text : List Char} {st' : SegState}
    (h : maskSegs pats text = some st') :
    maskM pats text = ⟨flat st'.segs, st'.cur, st'.rev⟩ := by
  by_cases hlt : '<' ∈ text
  · simp [maskSegs, hlt] at h
  · simp only [maskSegs, if_neg hlt] at h
    have := foldl_obind_refine catSegs maskCat
      (fun s : SegState => (⟨flat s.segs, s.cur, s.rev⟩ : MState))
      (fun s p s' hg => catSegs_refine hg) pats ⟨[Seg.chunk text], [], []⟩ st' h
    simpa [maskM, flat] using this

/-! ### Invariant preservation for the instrumented engine -/

theorem segSplice_mem {segs : List Seg} {i : Nat} {v t : List Char} {segs' : List Seg}
    (h : segSplice segs i v t = some segs') :
    (∀ c0, Seg.chunk c0 ∈ segs' → ∃ c, Seg.chunk c ∈ segs ∧ c0 ⊆ c) ∧
    (∀ t0, Seg.tok t0 ∈ segs' → t0 = t ∨ Seg.tok t0 ∈ segs) := by
  obtain ⟨pre, c, j, post, e1, e2, e3, e4, e5⟩ := segSplice_decomp _ _ h
  subst e1
  subst e2
  constructor
  · intro c0 hc0
    rcases List.mem_append.mp hc0 with hm | hm
    · exact ⟨c0, List.mem_append_left _ hm, fun x hx => hx⟩
    · rcases List.mem_cons.mp hm with he | hm
      · have : c.take j = c0 := by injection he.symm
        exact ⟨c, List.mem_append_right _ (List.mem_cons_self _ _),
          this ▸ List.take_subset _ _⟩
      · rcases List.mem_cons.mp hm with he | hm
        · simp at he
        · rcases List.mem_cons.mp hm with he | hm
          · have : c.drop (j + v.length) = c0 := by injection he.symm
            exact ⟨c, List.mem_append_right _ (List.mem_cons_self _ _),
              this ▸ List.drop_subset _ _⟩
          · exact ⟨c0, List.mem_append_right _ (List.mem_cons_of_mem _ hm), fun x hx => hx⟩
  · intro t0 ht0
    rcases List.mem_append.mp ht0 with hm | hm
    · exact Or.inr (List.mem_append_left _ hm)
    · rcases List.mem_cons.mp hm with he | hm
      · simp at he
      · rcases List.mem_cons.mp hm with he | hm
        · exact Or.inl (by injection he)
        · rcases List.mem_cons.mp hm with he | hm
          · simp at he
          · exact Or.inr (List.mem_append_right _ (List.mem_cons_of_mem _ hm))

/-- Splicing a token whose mapping entry carries the removed slice preserves
the reconstructed original text. -/
theorem segSplice_origFlat {segs : List Seg} {i : Nat} {v t : List Char}
    {segs' : List Seg} {m : List (List Char × List Char)}
    (h : segSplice segs i v t = some segs') (hlk : lookupFirst m t = some v) :
    origFlat m segs' = origFlat m segs := by
  obtain ⟨pre, c, j, post, e1, e2, e3, e4, e5⟩ := segSplice_decomp _ _ h
  subst e1
  subst e2
  simp only [origFlat_append, origFlat_chunk_cons, origFlat_tok_cons, hlk, Option.getD_some]
  have hdd : c.drop (j + v.length) = (c.drop j).drop v.length := by
    rw [List.drop_drop, Nat.add_comm]
  have h1 : v ++ (c.drop j).drop v.length = c.drop j := by
    have h2 := List.take_append_drop v.length (c.drop j)
    rw [e4] at h2
    exact h2
  have hslice : c.take j ++ (v ++ c.drop (j + v.length)) = c := by
    rw [hdd, h1]
    exact List.take_append_drop _ _
  conv_rhs => rw [← hslice]
  simp [List.append_assoc]

theorem origFlat_append_stable {cur ext : List (List Char × List Char)} {segs : List Seg}
    (h : ∀ t, Seg.tok t ∈ segs → (lookupFirst cur t).isSome = true) :
    origFlat (cur ++ ext) segs = origFlat cur segs := by
  induction segs with
  | nil => rfl
  | cons sg rest ih =>
    have ih' := ih (fun t ht => h t (List.mem_cons_of_mem _ ht))
    cases sg with
    | chunk c => simp [ih']
    | tok t =>
      obtain ⟨w, hw⟩ := Option.isSome_iff_exists.mp (h t (List.mem_cons_self _ _))
      rw [origFlat_tok_cons, origFlat_tok_cons, hw, lookupFirst_append_of_some hw, ih']

theorem flat_resolve_of_allSome {m : List (List Char × List Char)} {segs : List Seg}
    (h : ∀ t, Seg.tok t ∈ segs → (lookupFirst m t).isSome = true) :
    flat (segs.map (resolveSeg m)) = origFlat m segs := by
  induction segs with
  | nil => rfl
  | cons sg rest ih =>
    have ih' := ih (fun t ht => h t (List.mem_cons_of_mem _ ht))
    cases sg with
    | chunk c => simp [resolveSeg, ih']
    | tok t =>
      obtain ⟨w, hw⟩ := Option.isSome_iff_exists.mp (h t (List.mem_cons_self _ _))
      simp only [List.map_cons, resolveSeg, hw, flat_chunk_cons, origFlat_tok_cons,
        Option.getD_some, ih']

theorem stepSegs_inv {text₀ ty : List Char} {st : SegState} {m : Nat × List Char}
    {st' : SegState} (hinv : SegInv text₀ st) (h : stepSegs ty st m = some st') :
    SegInv text₀ st' := by
  by_cases hlt : '<' ∈ m.2
  · simp [stepSegs, hlt] at h
  · simp only [stepSegs, if_neg hlt] at h
    cases hrev : lookupFirst st.rev m.2 with
    | some t =>
      rw [hrev] at h
      obtain ⟨segs', hsp, rfl⟩ := Option.map_eq_some'.mp h
      have hmemc := (segSplice_mem hsp).1
      have hmemt := (segSplice_mem hsp).2
      have htcur : (t, m.2) ∈ st.cur := hinv.revCur _ (mem_of_lookupFirst hrev)
      have hlkt : lookupFirst st.cur t = some m.2 :=
        lookupFirst_mem_of_nodup hinv.keysNodup htcur
      refine ⟨?_, ?_, ?_, hinv.keysNodup, hinv.keysWf, hinv.valsLt, ?_, hinv.revCur⟩
      · intro c0 hc0
        obtain ⟨c, hcm, hsub⟩ := hmemc c0 hc0
        exact fun hm => hinv.chunks c hcm (hsub hm)
      · intro t0 ht0
        rcases hmemt t0 ht0 with rfl | hm
        · exact hinv.keysWf _ htcur
        · exact hinv.toks _ hm
      · intro t0 ht0
        rcases hmemt t0 ht0 with rfl | hm
        · simp [hlkt]
        · exact hinv.toksCur _ hm
      · show origFlat st.cur segs' = text₀
        rw [segSplice_origFlat hsp hlkt, hinv.orig]
    | none =>
      rw [hrev] at h
      by_cases hck : (wfTokB (mkTok ty (tokCount ty st.cur + 1))
          && (lookupFirst st.cur (mkTok ty (tokCount ty st.cur + 1))).isNone) = true
      · rw [if_pos hck] at h
        obtain ⟨segs', hsp, rfl⟩ := Option.map_eq_some'.mp h
        have hmemc := (segSplice_mem hsp).1
        have hmemt := (segSplice_mem hsp).2
        obtain ⟨hwfb, hnoneb⟩ := (Bool.and_eq_true _ _).mp hck
        have hwf : WfTok (mkTok ty (tokCount ty st.cur + 1)) := (wfTokB_iff _).mp hwfb
        have hcurnone : lookupFirst st.cur (mkTok ty (tokCount ty st.cur + 1)) = none :=
          Option.isNone_iff_eq_none.mp hnoneb
        have hnotin : mkTok ty (tokCount ty st.cur + 1) ∉ st.cur.map Prod.fst := by
          intro hm
          obtain ⟨kv, hkv, he⟩ := List.mem_map.mp hm
          exact (lookupFirst_eq_none.mp hcurnone kv hkv) he
        have hlkt : lookupFirst (st.cur ++ [(mkTok ty (tokCount ty st.cur + 1), m.2)])
            (mkTok ty (tokCount ty st.cur + 1)) = some m.2 := by
          rw [lookupFirst_append_of_none hcurnone]
          simp [lookupFirst]
        refine ⟨?_, ?_, ?_, ?_, ?_, ?_, ?_, ?_⟩
        · intro c0 hc0
          obtain ⟨c, hcm, hsub⟩ := hmemc c0 hc0
          exact fun hm => hinv.chunks c hcm (hsub hm)
        · intro t0 ht0
          rcases hmemt t0 ht0 with rfl | hm
          · exact hwf
          · exact hinv.toks _ hm
        · intro t0 ht0
          rcases hmemt t0 ht0 with rfl | hm
          · simp [hlkt]
          · obtain ⟨w, hw⟩ := Option.isSome_iff_exists.mp (hinv.toksCur _ hm)
            simp [lookupFirst_append_of_some hw]
        · show ((st.cur ++ [(mkTok ty (tokCount ty st.cur + 1), m.2)]).map Prod.fst).Nodup
          rw [List.map_append]
          rw [List.nodup_append]
          exact ⟨hinv.keysNodup, by simp, by simpa [List.disjoint_right] using hnotin⟩
        · intro kv hkv
          rcases List.mem_append.mp hkv with hm | hm
          · exact hinv.keysWf _ hm
          · obtain rfl : kv = (mkTok ty (tokCount ty st.cur + 1), m.2) := by simpa using hm
            exact hwf
        · intro kv hkv
          rcases List.mem_append.mp hkv with hm | hm
          · exact hinv.valsLt _ hm
          · obtain rfl : kv = (mkTok ty (tokCount ty st.cur + 1), m.2) := by simpa using hm
            exact hlt
        · show origFlat (st.cur ++ [(mkTok ty (tokCount ty st.cur + 1), m.2)]) segs' = text₀
          rw [segSplice_origFlat hsp hlkt, origFlat_append_stable hinv.toksCur, hinv.orig]
        · intro vt hvt
          rcases List.mem_append.mp hvt with hm | hm
          · exact List.mem_append_left _ (hinv.revCur _ hm)
          · obtain rfl : vt = (m.2, mkTok ty (tokCount ty st.cur + 1)) := by simpa using hm
            exact List.mem_append_right _ (List.mem_cons_self _ _)
      · rw [if_neg hck] at h
        exact absurd h (by simp)

theorem foldl_obind_inv {σ : Type} {α : Type} (P : σ → Prop) (g : σ → α → Option σ)
    (hstep : ∀ s a s', P s → g s a = some s' → P s') :
    ∀ (l : List α) (s s' : σ), P s →
      l.foldl (fun o a => o.bind fun x => g x a) (some s) = some s' → P s' := by
  intro l
  induction l with
  | nil =>
    intro s s' hP h
    obtain rfl : s = s' := by simpa using h
    exact hP
  | cons a l ih =>
    intro s s' hP h
    simp only [List.foldl_cons] at h
    rw [show ((some s).bind fun x => g x a) = g s a from rfl] at h
    cases hg : g s a with
    | none => rw [hg] at h; exact absurd (h ▸ foldl_obind_none g l) (by simp)
    | some s₁ =>
      rw [hg] at h
      exact ih s₁ s' (hstep s a s₁ hP hg) h

theorem catSegs_inv {text₀ : List Char} {st : SegState}
    {p : List Char × (List Char → List (Nat × List Char))} {st' : SegState}
    (hinv : SegInv text₀ st) (h : catSegs st p = some st') : SegInv text₀ st' :=
  foldl_obind_inv (SegInv text₀) (stepSegs p.1)
    (fun _ _ _ hP hg => stepSegs_inv hP hg) _ st st' hinv h

theorem maskSegs_inv {pats : PatTable} {text : List Char} {st' : SegState}
    (h : maskSegs pats text = some st') : SegInv text st' := by
  by_cases hlt : '<' ∈ text
  · simp [maskSegs, hlt] at h
  · simp only [maskSegs, if_neg hlt] at h
    have hinit : SegInv text ⟨[Seg.chunk text], [], []⟩ := by
      refine ⟨?_, by simp, by simp, by simp, by simp, by simp, by simp [origFlat], by simp⟩
      intro c hc
      obtain rfl : text = c := by
        have := List.mem_singleton.mp hc
        injection this.symm
      exact hlt
    exact foldl_obind_inv (SegInv text) (fun st p => catSegs st p)
      (fun _ _ _ hP hg => catSegs_inv hP hg) pats _ st' hinit h

/-! ### The matcher produces valid, ordered, in-bounds slices -/

theorem mrun_append (re : RE) : ∀ (prev : Option Char) (s : List Char)
    (pr : List Char × List Char), pr ∈ mrun re prev s → pr.1 ++ pr.2 = s := by
  induction re with
  | eps => intro prev s pr hpr; simp only [mrun, List.mem_singleton] at hpr; simp [hpr]
  | cls p =>
    intro prev s pr hpr
    cases s with
    | nil => simp [mrun] at hpr
    | cons c cs =>
      by_cases hc : p c
      · simp only [mrun, if_pos hc, List.mem_singleton] at hpr
        simp [hpr]
      · simp [mrun, hc] at hpr
  | seq a b iha ihb =>
    intro prev s pr hpr
    simp only [mrun, List.mem_flatMap, List.mem_map] at hpr
    obtain ⟨pa, hpa, pb, hpb, rfl⟩ := hpr
    have h1 := iha prev s pa hpa
    have h2 := ihb (lastPrev prev pa.1) pa.2 pb hpb
    simp only
    rw [List.append_assoc, h2, h1]
  | opt a iha =>
    intro prev s pr hpr
    simp only [mrun, List.mem_append, List.mem_singleton] at hpr
    rcases hpr with hm | rfl
    · exact iha prev s pr hm
    · simp
  | starCls p =>
    intro prev s pr hpr
    simp only [mrun, List.mem_map, List.mem_reverse, List.mem_range] at hpr
    obtain ⟨k, -, rfl⟩ := hpr
    exact List.take_append_drop _ _
  | wb =>
    intro prev s pr hpr
    by_cases hc : (isWordOpt prev != isWordOpt s.head?) = true
    · simp only [mrun, if_pos hc, List.mem_singleton] at hpr
      simp [hpr]
    · simp [mrun, hc] at hpr

theorem firstMatch_spec {ms : List (List Char × List Char)} {pos i : Nat}
    {c r : List Char} (h : firstMatch ms pos = some (i, c, r)) :
    i = pos ∧ (c, r) ∈ ms := by
  cases ms with
  | nil => simp [firstMatch] at h
  | cons pr tl =>
    simp only [firstMatch, Option.some.injEq, Prod.mk.injEq] at h
    refine ⟨h.1.symm, ?_⟩
    have : (c, r) = pr := by
      rw [← h.2.1, ← h.2.2]
    rw [this]
    exact List.mem_cons_self _ _

theorem searchFrom_spec (re : RE) : ∀ (s : List Char) (prev : Option Char) (pos : Nat)
    {i : Nat} {c r : List Char}, searchFrom re prev s pos = some (i, c, r) →
    pos ≤ i ∧ ∃ a, s = a ++ (c ++ r) ∧ pos + a.length = i := by
  intro s
  induction s with
  | nil =>
    intro prev pos i c r h
    rw [searchFrom] at h
    obtain ⟨rfl, hmem⟩ := firstMatch_spec h
    have := mrun_append re prev [] (c, r) hmem
    exact ⟨Nat.le_refl _, [], by simpa using this.symm, by simp⟩
  | cons ch rest ih =>
    intro prev pos i c r h
    rw [searchFrom] at h
    cases hm : firstMatch (mrun re prev (ch :: rest)) pos with
    | some res =>
      rw [hm] at h
      simp only [Option.some.injEq] at h
      subst h
      obtain ⟨rfl, hmem⟩ := firstMatch_spec hm
      have := mrun_append re prev (ch :: rest) (c, r) hmem
      exact ⟨Nat.le_refl _, [], by simpa using this.symm, by simp⟩
    | none =>
      rw [hm] at h
      obtain ⟨hle, a', ha', hlen⟩ := ih (some ch) (pos + 1) h
      refine ⟨by omega, ch :: a', by simp [ha'], ?_⟩
      simp only [List.length_cons]
      omega

theorem finditerAux_spec (re : RE) : ∀ (fuel : Nat) (prev : Option Char) (s : List Char)
    (pos : Nat) (i : Nat) (mv : List Char), (i, mv) ∈ finditerAux re prev s pos fuel →
    pos ≤ i ∧ ∃ a b, s = a ++ (mv ++ b) ∧ pos + a.length = i := by
  intro fuel
  induction fuel with
  | zero => intro prev s pos i mv h; simp [finditerAux] at h
  | succ fuel ih =>
    intro prev s pos i mv h
    cases hs : searchFrom re prev s pos with
    | none => simp [finditerAux, hs] at h
    | some res =>
      obtain ⟨i₀, c, r⟩ := res
      obtain ⟨hle₀, a₀, ha₀, hlen₀⟩ := searchFrom_spec re s prev pos hs
      simp only [finditerAux, hs] at h
      cases c with
      | nil =>
        cases r with
        | nil =>
          simp only [List.mem_singleton, Prod.mk.injEq] at h
          obtain ⟨rfl, rfl⟩ := h
          exact ⟨hle₀, a₀, [], by simpa using ha₀, hlen₀⟩
        | cons ch rest =>
          rcases List.mem_cons.mp h with he | hm
          · obtain ⟨rfl, rfl⟩ := Prod.mk.injEq .. ▸ he
            exact ⟨hle₀, a₀, ch :: rest, by simpa using ha₀, hlen₀⟩
          · obtain ⟨hle', a', b', ha', hlen'⟩ := ih (some ch) rest (i₀ + 1) _ _ hm
            refine ⟨by omega, a₀ ++ ch :: a', b', ?_, ?_⟩
            · rw [ha₀, ha']
              simp [List.append_assoc]
            · simp only [List.length_append, List.length_cons]
              omega
      | cons c0 c1 =>
        rcases List.mem_cons.mp h with he | hm
        · obtain ⟨rfl, rfl⟩ := Prod.mk.injEq .. ▸ he
          exact ⟨hle₀, a₀, r, ha₀, hlen₀⟩
        · obtain ⟨hle', a', b', ha', hlen'⟩ :=
            ih ((c0 :: c1).getLast?) r (i₀ + (c0 :: c1).length) _ _ hm
          refine ⟨by simp at hle' ⊢; omega, a₀ ++ (c0 :: c1) ++ a', b', ?_, ?_⟩
          · rw [ha₀, ha']
            simp [List.append_assoc]
          · simp only [List.length_append, List.length_cons] at hlen' ⊢
            omega

theorem finditerAux_pairwise (re : RE) : ∀ (fuel : Nat) (prev : Option Char)
    (s : List Char) (pos : Nat),
    (finditerAux re prev s pos fuel).Pairwise (fun a b => a.1 + a.2.length ≤ b.1) := by
  intro fuel
  induction fuel with
  | zero => intro prev s pos; simp [finditerAux]
  | succ fuel ih =>
    intro prev s pos
    cases hs : searchFrom re prev s pos with
    | none => simp [finditerAux, hs]
    | some res =>
      obtain ⟨i₀, c, r⟩ := res
      simp only [finditerAux, hs]
      cases c with
      | nil =>
        cases r with
        | nil => simp
        | cons ch rest =>
          rw [List.pairwise_cons]
          refine ⟨?_, ih (some ch) rest (i₀ + 1)⟩
          intro m hm
          have := (finditerAux_spec re fuel (some ch) rest (i₀ + 1)
            m.1 m.2 (by simpa using hm)).1
          simp only [List.length_nil]
          omega
      | cons c0 c1 =>
        rw [List.pairwise_cons]
        refine ⟨?_, ih ((c0 :: c1).getLast?) r (i₀ + (c0 :: c1).length)⟩
        intro m hm
        have := (finditerAux_spec re fuel ((c0 :: c1).getLast?) r (i₀ + (c0 :: c1).length)
          m.1 m.2 (by simpa using hm)).1
        show i₀ + (c0 :: c1).length ≤ m.1
        omega

/-- Every regex-based matcher in the pattern tables yields valid matches on
every input: exact in-bounds slices, ordered left to right, non-overlapping. -/
theorem reMatcher_valid (re : RE) (s : List Char) : ValidMatches (reMatcher re s) s := by
  constructor
  · intro m hm
    obtain ⟨-, a, b, hab, hlen⟩ :=
      finditerAux_spec re (s.length + 1) none s 0 m.1 m.2
        (by simpa using hm)
    have hl : a.length = m.1 := by omega
    constructor
    · rw [hab]
      simp only [List.length_append]
      omega
    · rw [hab, show m.1 = a.length from hl.symm, List.drop_left, List.take_left]
  · exact finditerAux_pairwise re (s.length + 1) none s 0

/-! ### The checked engine never fails on valid matchers -/

theorem maskCheckedStep_some {ty : List Char} {st : MState} {m : Nat × List Char}
    (h1 : m.1 + m.2.length ≤ st.text.length)
    (h2 : (st.text.drop m.1).take m.2.length = m.2) :
    maskCheckedStep ty st m = some (maskStepM ty st m) := by
  simp [maskCheckedStep, h1, h2]

theorem maskStepM_text (ty : List Char) (st : MState) (m : Nat × List Char) :
    ∃ t, (maskStepM ty st m).text
      = st.text.take m.1 ++ t ++ st.text.drop (m.1 + m.2.length) := by
  cases hr : lookupFirst st.rev m.2 with
  | some t => exact ⟨t, by simp [maskStepM, hr]⟩
  | none => exact ⟨mkTok ty (tokCount ty st.cur + 1), by simp [maskStepM, hr]⟩

/-- A slice strictly left of a splice point survives the splice. -/
theorem slice_stable {s x : List Char} {i n j : Nat} (hij : i + n ≤ j)
    (hjs : j ≤ s.length) :
    ((s.take j ++ x).drop i).take n = (s.drop i).take n := by
  rw [List.drop_append_of_le_length (by rw [List.length_take]; omega)]
  rw [List.take_append_of_le_length
    (by rw [List.length_drop, List.length_take]; omega)]
  rw [List.drop_take]
  rw [List.take_take]
  congr 1
  omega

theorem checkedFold_some (ty : List Char) : ∀ (r : List (Nat × List Char)) (st : MState),
    (∀ m ∈ r, m.1 + m.2.length ≤ st.text.length ∧
      (st.text.drop m.1).take m.2.length = m.2) →
    r.Pairwise (fun a b => b.1 + b.2.length ≤ a.1) →
    r.foldl (fun o m => o.bind fun s => maskCheckedStep ty s m) (some st)
      = some (r.foldl (maskStepM ty) st) := by
  intro r
  induction r with
  | nil => intro st _ _; rfl
  | cons m₀ r' ih =>
    intro st hval hpair
    have hv₀ := hval m₀ (List.mem_cons_self _ _)
    simp only [List.foldl_cons]
    rw [show ((some st).bind fun s => maskCheckedStep ty s m₀) = maskCheckedStep ty st m₀
      from rfl]
    rw [maskCheckedStep_some hv₀.1 hv₀.2]
    apply ih
    · intro m hm
      have hle : m.1 + m.2.length ≤ m₀.1 := (List.pairwise_cons.mp hpair).1 m hm
      have hvm := hval m (List.mem_cons_of_mem _ hm)
      obtain ⟨t, htext⟩ := maskStepM_text ty st m₀
      have hassoc : (maskStepM ty st m₀).text
          = st.text.take m₀.1 ++ (t ++ st.text.drop (m₀.1 + m₀.2.length)) := by
        rw [htext, List.append_assoc]
      constructor
      · rw [hassoc]
        simp only [List.length_append, List.length_take]
        omega
      · rw [hassoc, slice_stable hle (by omega), hvm.2]
    · exact (List.pairwise_cons.mp hpair).2

theorem maskCheckedCat_some {st : MState}
    {p : List Char × (List Char → List (Nat × List Char))}
    (hf : ∀ s, ValidMatches (p.2 s) s) :
    maskCheckedCat st p = some (maskCat st p) := by
  apply checkedFold_some
  · intro m hm
    have := (hf st.text).1 m (List.mem_reverse.mp hm)
    exact ⟨this.1, this.2⟩
  · rw [List.pairwise_reverse]
    exact (hf st.text).2

theorem maskChecked_some {pats : PatTable} {text : List Char}
    (hf : ∀ p ∈ pats, ∀ s, ValidMatches (p.2 s) s) :
    maskChecked pats text = some (maskM pats text) := by
  have main : ∀ (ps : PatTable) (st : MState), (∀ p ∈ ps, ∀ s, ValidMatches (p.2 s) s) →
      ps.foldl (fun o p => o.bind fun s => maskCheckedCat s p) (some st)
        = some (ps.foldl maskCat st) := by
    intro ps
    induction ps with
    | nil => intro st _; rfl
    | cons p ps ih =>
      intro st hp
      simp only [List.foldl_cons]
      rw [show ((some st).bind fun s => maskCheckedCat s p) = maskCheckedCat st p from rfl]
      rw [maskCheckedCat_some (hp p (List.mem_cons_self _ _))]
      exact ih _ (fun q hq => hp q (List.mem_cons_of_mem _ hq))
  exact main pats _ hf

theorem botPats_valid : ∀ p ∈ botPats, ∀ s, ValidMatches (p.2 s) s := by
  intro p hp
  simp only [botPats, List.mem_cons, List.not_mem_nil, or_false] at hp
  rcases hp with rfl | rfl | rfl | rfl | rfl | rfl | rfl
  · exact fun s => reMatcher_valid emailRE s
  · exact fun s => reMatcher_valid phoneRE s
  · exact fun s => reMatcher_valid ssnRE s
  · exact fun s => reMatcher_valid ccRE s
  · exact fun s => reMatcher_valid ipRE s
  · exact fun s => reMatcher_valid userIdRE s
  · exact fun s => reMatcher_valid accountRE s

/-! ### Deduplication: mapping values are pairwise distinct -/

theorem dictInsert_snd_subset {m : List (List Char × List Char)} {k v x : List Char}
    (h : x ∈ (dictInsert m k v).map Prod.snd) : x ∈ m.map Prod.snd ∨ x = v := by
  induction m with
  | nil =>
    simp only [dictInsert, List.map_cons, List.map_nil, List.mem_singleton] at h
    exact Or.inr h
  | cons kv rest ih =>
    by_cases hk : kv.1 = k
    · simp only [dictInsert, if_pos hk, List.map_cons, List.mem_cons] at h
      rcases h with rfl | hm
      · exact Or.inr rfl
      · exact Or.inl (List.mem_cons_of_mem _ hm)
    · simp only [dictInsert, if_neg hk, List.map_cons, List.mem_cons] at h
      rcases h with rfl | hm
      · exact Or.inl (List.mem_cons_self _ _)
      · rcases ih hm with hm2 | rfl
        · exact Or.inl (List.mem_cons_of_mem _ hm2)
        · exact Or.inr rfl

theorem dictInsert_snd_nodup {m : List (List Char × List Char)} {k v : List Char}
    (hnd : (m.map Prod.snd).Nodup) (hv : v ∉ m.map Prod.snd) :
    ((dictInsert m k v).map Prod.snd).Nodup := by
  induction m with
  | nil => simp [dictInsert]
  | cons kv rest ih =>
    simp only [List.map_cons, List.nodup_cons] at hnd
    have hvrest : v ∉ rest.map Prod.snd := fun hm => hv (List.mem_cons_of_mem _ hm)
    by_cases hk : kv.1 = k
    · simp only [dictInsert, if_pos hk, List.map_cons, List.nodup_cons]
      exact ⟨hvrest, hnd.2⟩
    · simp only [dictInsert, if_neg hk, List.map_cons, List.nodup_cons]
      constructor
      · intro hm
        rcases dictInsert_snd_subset hm with hm2 | he
        · exact hnd.1 hm2
        · exact hv (he ▸ List.mem_cons_self _ _)
      · exact ih hnd.2 hvrest

theorem maskStepM_vals {ty : List Char} {st : MState} {m : Nat × List Char}
    (h : (st.cur.map Prod.snd).Nodup ∧
      ∀ v ∈ st.cur.map Prod.snd, lookupFirst st.rev v ≠ none) :
    ((maskStepM ty st m).cur.map Prod.snd).Nodup ∧
      ∀ v ∈ (maskStepM ty st m).cur.map Prod.snd,
        lookupFirst (maskStepM ty st m).rev v ≠ none := by
  cases hr : lookupFirst st.rev m.2 with
  | some t => simpa [maskStepM, hr] using h
  | none =>
    simp only [maskStepM, hr]
    constructor
    · apply dictInsert_snd_nodup h.1
      intro hm
      exact (h.2 m.2 hm) hr
    · intro v hv
      rcases dictInsert_snd_subset hv with hm | rfl
      · have hne := h.2 v hm
        rw [dictInsert_of_absent hr]
        cases hlk : lookupFirst st.rev v with
        | none => exact absurd hlk hne
        | some w => rw [lookupFirst_append_of_some hlk]; simp
      · rw [dictInsert_of_absent hr, lookupFirst_append_of_none hr]
        simp [lookupFirst]

theorem foldl_inv {σ : Type} {α : Type} (P : σ → Prop) (g : σ → α → σ)
    (hstep : ∀ s a, P s → P (g s a)) :
    ∀ (l : List α) (s : σ), P s → P (l.foldl g s) := by
  intro l
  induction l with
  | nil => intro s hs; exact hs
  | cons a l ih =>
    intro s hs
    rw [List.foldl_cons]
    exact ih _ (hstep s a hs)

/-- The reverse-index dedup guarantees that no two mapping entries ever carry
the same original value, for any pattern table and any input. -/
theorem mask_values_nodup (pats : PatTable) (text : List Char) :
    ((mask pats text).2.map Prod.snd).Nodup := by
  have hstepCat : ∀ (st : MState) (p : List Char × (List Char → List (Nat × List Char))),
      ((st.cur.map Prod.snd).Nodup ∧
        ∀ v ∈ st.cur.map Prod.snd, lookupFirst st.rev v ≠ none) →
      (((maskCat st p).cur.map Prod.snd).Nodup ∧
        ∀ v ∈ (maskCat st p).cur.map Prod.snd, lookupFirst (maskCat st p).rev v ≠ none) := by
    intro st p hP
    exact foldl_inv (fun s : MState => (s.cur.map Prod.snd).Nodup ∧
        ∀ v ∈ s.cur.map Prod.snd, lookupFirst s.rev v ≠ none)
      (maskStepM p.1) (fun s mch hs => maskStepM_vals hs) ((p.2 st.text).reverse) st hP
  have main := foldl_inv
    (fun st : MState => (st.cur.map Prod.snd).Nodup ∧
      ∀ v ∈ st.cur.map Prod.snd, lookupFirst st.rev v ≠ none)
    maskCat hstepCat pats ⟨text, [], []⟩ ⟨by simp, by simp⟩
  simpa [mask, maskM] using main.1

/-! ## The claims -/

/-- C1: Round-trip — for every text whose PII instances are well formed for
the pattern table (made precise by the instrumented run `maskSegs`
succeeding: the input is bracket-free and every match is a bracket-free
slice lying outside previously inserted tokens), applying `unmask` to the
masked text and per-call mapping returned by `mask` recovers the text
exactly. -/
theorem c1_mask_unmask_roundtrip (pats : PatTable) (text : List Char)
    (h : (maskSegs pats text).isSome = true) :
    unmask (mask pats text).1 (mask pats text).2 = text := by
  obtain ⟨st, hst⟩ := Option.isSome_iff_exists.mp h
  have hinv := maskSegs_inv hst
  have href := maskSegs_refine hst
  have h1 : (mask pats text).1 = flat st.segs := by simp [mask, href]
  have h2 : (mask pats text).2 = st.cur := by simp [mask, href]
  rw [h1, h2]
  rw [unmask_flat hinv.chunks hinv.toks hinv.keysWf hinv.valsLt]
  rw [flat_resolve_of_allSome hinv.toksCur]
  exact hinv.orig

/-- Witness for C1 at a concrete input containing an email and an IP. -/
theorem c1_roundtrip_witness :
    unmask (mask botPats ("a@b.com 10.0.0.1" : String).toList).1
      (mask botPats ("a@b.com 10.0.0.1" : String).toList).2
      = ("a@b.com 10.0.0.1" : String).toList :=
  c1_mask_unmask_roundtrip botPats ("a@b.com 10.0.0.1" : String).toList (by decide)

/-- C2 counterexample: the code numbers tokens in processing order, which is
the reverse of appearance order within a category, so
`mask("a@b.com, c@d.com")` does not produce the masked text
`"<EMAIL_1>, <EMAIL_2>"` that numbering-by-first-appearance would demand. -/
theorem c2_numbering_counterexample :
    ¬((mask botPats ("a@b.com, c@d.com" : String).toList).1
      = ("<EMAIL_1>, <EMAIL_2>" : String).toList) := by decide

/-- C2 (amended): within a category, token counters are assigned in
processing order, which is reverse appearance order (rightmost match first);
`mask("a@b.com, c@d.com")` yields `<EMAIL_1>` for `c@d.com` and `<EMAIL_2>`
for `a@b.com`, masked text `"<EMAIL_2>, <EMAIL_1>"`, and the mapping's
insertion order is the order tokens were assigned. -/
theorem c2_numbering_amended :
    mask botPats ("a@b.com, c@d.com" : String).toList
      = (("<EMAIL_2>, <EMAIL_1>" : String).toList,
         [(("<EMAIL_1>" : String).toList, ("c@d.com" : String).toList),
          (("<EMAIL_2>" : String).toList, ("a@b.com" : String).toList)]) := by decide

/-- C3: token stability under repetition — `mask("a@b.com calls a@b.com")`
produces exactly one mapping entry for `a@b.com` and the same token at both
occurrences; in general the reverse-index dedup guarantees that mapping
values are pairwise distinct for every pattern table and input. -/
theorem c3_token_stability :
    mask botPats ("a@b.com calls a@b.com" : String).toList
      = (("<EMAIL_1> calls <EMAIL_1>" : String).toList,
         [(("<EMAIL_1>" : String).toList, ("a@b.com" : String).toList)]) ∧
    ∀ (pats : PatTable) (text : List Char),
      ((mask pats text).2.map Prod.snd).Nodup := by
  exact ⟨by decide, mask_values_nodup⟩

/-- C4: substituted token text is not inert to later categories' rules, so
the intended precedence policy is violated by the code at large counters.
The token the engine emits for the 123456-th distinct `SSN` value in one
`mask` call is `<SSN_123456>`; the later `USER_ID` rule
`\b[A-Z]{2,4}[-_]?\d{6,10}\b` matches `SSN_123456` inside that token's
text, and the `USER_ID` category, scanning a working copy equal to that
token, splices a second, nested substitution into it, producing
`<<USER_ID_1>>` and registering the token's interior as a new PII value. -/
theorem c4_token_rematch :
    mkTok ("SSN" : String).toList 123456 = ("<SSN_123456>" : String).toList ∧
    reMatcher userIdRE ("<SSN_123456>" : String).toList
      = [(1, ("SSN_123456" : String).toList)] ∧
    (maskCat ⟨("<SSN_123456>" : String).toList, [], []⟩
        (("USER_ID" : String).toList, reMatcher userIdRE)).text
      = ("<<USER_ID_1>>" : String).toList ∧
    (maskCat ⟨("<SSN_123456>" : String).toList, [], []⟩
        (("USER_ID" : String).toList, reMatcher userIdRE)).cur
      = [(("<USER_ID_1>" : String).toList, ("SSN_123456" : String).toList)] := by
  decide

/-- C5 counterexample: with well-formed token keys but a value that is itself
another mapped token, the result of `unmask` depends on the order of the
mapping's entries. -/
theorem c5_order_counterexample :
    (∀ kv ∈ [(("<EMAIL_1>" : String).toList, ("<PHONE_1>" : String).toList),
             (("<PHONE_1>" : String).toList, ("x" : String).toList)], WfTok kv.1) ∧
    List.Perm
      [(("<EMAIL_1>" : String).toList, ("<PHONE_1>" : String).toList),
       (("<PHONE_1>" : String).toList, ("x" : String).toList)]
      [(("<PHONE_1>" : String).toList, ("x" : String).toList),
       (("<EMAIL_1>" : String).toList, ("<PHONE_1>" : String).toList)] ∧
    unmask ("hi <EMAIL_1>" : String).toList
      [(("<EMAIL_1>" : String).toList, ("<PHONE_1>" : String).toList),
       (("<PHONE_1>" : String).toList, ("x" : String).toList)]
      ≠ unmask ("hi <EMAIL_1>" : String).toList
        [(("<PHONE_1>" : String).toList, ("x" : String).toList),
         (("<EMAIL_1>" : String).toList, ("<PHONE_1>" : String).toList)] := by decide

/-- C5 (amended): for every text in which each `<` opens a well-formed token
and every mapping with well-formed, pairwise-distinct token keys whose
values contain no `<`, the result of `unmask` does not depend on the order
in which the mapping's entries are processed. -/
theorem c5_order_independence_amended (text : List Char)
    (m₁ m₂ : List (List Char × List Char))
    (htext : (textToSegs text).isSome = true)
    (hkeys : ∀ kv ∈ m₁, WfTok kv.1)
    (hvals : ∀ kv ∈ m₁, '<' ∉ kv.2)
    (hnd : (m₁.map Prod.fst).Nodup)
    (hperm : m₁.Perm m₂) :
    unmask text m₁ = unmask text m₂ := by
  obtain ⟨segs, hsegs⟩ := Option.isSome_iff_exists.mp htext
  obtain ⟨hf, hch, htk⟩ := textToSegs_spec hsegs
  rw [← hf]
  rw [unmask_flat hch htk hkeys hvals]
  rw [unmask_flat hch htk (fun kv hkv => hkeys kv (hperm.mem_iff.mpr hkv))
    (fun kv hkv => hvals kv (hperm.mem_iff.mpr hkv))]
  congr 1
  apply List.map_congr_left
  intro sg hsg
  cases sg with
  | chunk c => simp [resolveSeg]
  | tok t =>
    simp only [resolveSeg]
    rw [lookupFirst_perm hperm hnd t]

/-- Witness for C5 (amended) at a concrete text and a transposed mapping. -/
theorem c5_order_witness :
    unmask ("a <EMAIL_1> b" : String).toList
      [(("<EMAIL_1>" : String).toList, ("x" : String).toList),
       (("<PHONE_1>" : String).toList, ("y" : String).toList)]
    = unmask ("a <EMAIL_1> b" : String).toList
      [(("<PHONE_1>" : String).toList, ("y" : String).toList),
       (("<EMAIL_1>" : String).toList, ("x" : String).toList)] :=
  c5_order_independence_amended _ _ _ (by decide) (by decide) (by decide)
    (by decide) (by decide)

/-- C6 counterexample: with a mapping value that is itself a mapped token,
one `unmask` pass leaves a known token in the output and a second pass
replaces it, so `unmask` is not idempotent for every text and mapping. -/
theorem c6_idempotence_counterexample :
    unmask (unmask ("<PHONE_1>" : String).toList
        [(("<EMAIL_1>" : String).toList, ("v" : String).toList),
         (("<PHONE_1>" : String).toList, ("<EMAIL_1>" : String).toList)])
      [(("<EMAIL_1>" : String).toList, ("v" : String).toList),
       (("<PHONE_1>" : String).toList, ("<EMAIL_1>" : String).toList)]
    ≠ unmask ("<PHONE_1>" : String).toList
        [(("<EMAIL_1>" : String).toList, ("v" : String).toList),
         (("<PHONE_1>" : String).toList, ("<EMAIL_1>" : String).toList)] := by decide

/-- C6 (amended): for every text in which each `<` opens a well-formed token
and every mapping with well-formed token keys whose values contain no `<`,
applying `unmask` twice yields the same result as applying it once; and if
the mapping is complete for the text's tokens, no known token remains in the
output. -/
theorem c6_idempotent_amended (text : List Char) (m : List (List Char × List Char))
    (htext : (textToSegs text).isSome = true)
    (hkeys : ∀ kv ∈ m, WfTok kv.1)
    (hvals : ∀ kv ∈ m, '<' ∉ kv.2) :
    unmask (unmask text m) m = unmask text m ∧
    ((∀ t ∈ textTokens text, (lookupFirst m t).isSome = true) →
      ∀ kv ∈ m, ¬(kv.1 <:+: unmask text m)) := by
  obtain ⟨segs, hsegs⟩ := Option.isSome_iff_exists.mp htext
  obtain ⟨hf, hch, htk⟩ := textToSegs_spec hsegs
  have h1 : unmask text m = flat (segs.map (resolveSeg m)) := by
    rw [← hf]
    exact unmask_flat hch htk hkeys hvals
  have hch1 : ∀ c, Seg.chunk c ∈ segs.map (resolveSeg m) → '<' ∉ c := by
    intro c hc
    obtain ⟨sg, hsg, heq⟩ := List.mem_map.mp hc
    cases sg with
    | chunk c0 =>
      simp only [resolveSeg] at heq
      obtain rfl : c0 = c := by injection heq
      exact hch _ hsg
    | tok t =>
      simp only [resolveSeg] at heq
      cases hlk : lookupFirst m t with
      | some v =>
        rw [hlk] at heq
        obtain rfl : v = c := by injection heq
        exact hvals _ (mem_of_lookupFirst hlk)
      | none =>
        rw [hlk] at heq
        exact absurd heq (by simp)
  have htk1 : ∀ t, Seg.tok t ∈ segs.map (resolveSeg m) → WfTok t := by
    intro t ht
    obtain ⟨sg, hsg, heq⟩ := List.mem_map.mp ht
    cases sg with
    | chunk c0 => simp only [resolveSeg] at heq; exact absurd heq (by simp)
    | tok t0 =>
      simp only [resolveSeg] at heq
      cases hlk : lookupFirst m t0 with
      | some v => rw [hlk] at heq; exact absurd heq (by simp)
      | none =>
        rw [hlk] at heq
        obtain rfl : t0 = t := by injection heq
        exact htk _ hsg
  constructor
  · rw [h1, unmask_flat hch1 htk1 hkeys hvals, List.map_map]
    congr 1
    apply List.map_congr_left
    intro sg hsg
    cases sg with
    | chunk c => simp [resolveSeg]
    | tok t =>
      simp only [Function.comp_apply, resolveSeg]
      cases hlk : lookupFirst m t with
      | some v => simp [resolveSeg]
      | none => simp [resolveSeg, hlk]
  · intro hcomp kv hkv hinf
    have hall : ∀ t, Seg.tok t ∈ segs → (lookupFirst m t).isSome = true := by
      intro t ht
      apply hcomp
      simp only [textTokens, textToSegs] at hsegs ⊢
      rw [hsegs]
      simp only [Option.getD_some, List.mem_filterMap]
      exact ⟨Seg.tok t, ht, rfl⟩
    have hnolt : '<' ∉ unmask text m := by
      rw [h1, flat_resolve_of_allSome hall]
      intro hm
      simp only [origFlat, List.mem_flatMap] at hm
      obtain ⟨sg, hsg, hmem⟩ := hm
      cases sg with
      | chunk c => exact hch _ hsg hmem
      | tok t =>
        obtain ⟨w, hw⟩ := Option.isSome_iff_exists.mp (hall t hsg)
        have hmem' : '<' ∈ (lookupFirst m t).getD [] := hmem
        rw [hw] at hmem'
        exact hvals _ (mem_of_lookupFirst hw) (by simpa using hmem')
    have hwf := hkeys kv hkv
    obtain ⟨bk, hkk, -, -⟩ := hwf
    apply hnolt
    apply hinf.subset
    rw [hkk]
    exact List.mem_cons_self _ _

/-- Witness for C6 (amended) at a concrete text and complete mapping. -/
theorem c6_idempotent_witness :
    unmask (unmask ("q <EMAIL_1>" : String).toList
        [(("<EMAIL_1>" : String).toList, ("z" : String).toList)])
      [(("<EMAIL_1>" : String).toList, ("z" : String).toList)]
    = unmask ("q <EMAIL_1>" : String).toList
        [(("<EMAIL_1>" : String).toList, ("z" : String).toList)] :=
  (c6_idempotent_amended _ _ (by decide) (by decide) (by decide)).1

/-- C7: unknown token pass-through — an occurrence of a well-formed token
with no entry in a mapping whose keys are well-formed tokens survives
`unmask` verbatim (no error is possible: `unmask` is a total fold of
replacements), and `unmask` with an empty mapping returns its input
unchanged. -/
theorem c7_unknown_token_passthrough (u text : List Char)
    (m : List (List Char × List Char)) (hu : WfTok u)
    (hkeys : ∀ kv ∈ m, WfTok kv.1) (hnot : ∀ kv ∈ m, kv.1 ≠ u)
    (hocc : u <:+: text) :
    u <:+: unmask text m ∧ unmask text [] = text := by
  constructor
  · obtain ⟨a, b, hab⟩ := hocc
    have htext : text = a ++ (u ++ b) := by rw [← hab, List.append_assoc]
    obtain ⟨a', b', h'⟩ := unmask_infix hu hkeys hnot a b
    rw [htext, h']
    exact ⟨a', b', by rw [List.append_assoc]⟩
  · rfl

/-- Witness for C7: `unmask("see <EMAIL_9>", …)` keeps `<EMAIL_9>` intact. -/
theorem c7_passthrough_witness :
    ("<EMAIL_9>" : String).toList <:+:
      unmask ("see <EMAIL_9>" : String).toList
        [(("<PHONE_1>" : String).toList, ("x" : String).toList)] ∧
    unmask ("see <EMAIL_9>" : String).toList [] = ("see <EMAIL_9>" : String).toList :=
  c7_unknown_token_passthrough ("<EMAIL_9>" : String).toList
    ("see <EMAIL_9>" : String).toList
    [(("<PHONE_1>" : String).toList, ("x" : String).toList)]
    (by decide) (by decide) (by decide) (by decide)

/-- C8: no matches, no change — whenever every category's rule finds no
match in the input (in particular on the empty string and on
`"hello world"`), `mask` returns the input unchanged with an empty
mapping. -/
theorem c8_no_match_identity (pats : PatTable) (text : List Char)
    (h : ∀ p ∈ pats, p.2 text = []) : mask pats text = (text, []) := by
  have main : ∀ (ps : PatTable), (∀ p ∈ ps, p.2 text = []) →
      ps.foldl maskCat ⟨text, [], []⟩ = ⟨text, [], []⟩ := by
    intro ps
    induction ps with
    | nil => intro _; rfl
    | cons p ps ih =>
      intro hp
      simp only [List.foldl_cons]
      have hcat : maskCat (⟨text, [], []⟩ : MState) p = ⟨text, [], []⟩ := by
        simp [maskCat, hp p (List.mem_cons_self _ _)]
      rw [hcat]
      exact ih (fun q hq => hp q (List.mem_cons_of_mem _ hq))
  simp [mask, maskM, main pats h]

/-- Witness for C8 on the empty string and on `"hello world"`. -/
theorem c8_no_match_witness :
    mask botPats ("" : String).toList = (("" : String).toList, []) ∧
    mask botPats ("hello world" : String).toList
      = (("hello world" : String).toList, []) :=
  ⟨c8_no_match_identity botPats _ (by decide),
   c8_no_match_identity botPats _ (by decide)⟩

/-- C9: totality of the engine — `mask` and `unmask` are total functions of
their inputs; the checked variant of the engine, which verifies that every
match span is an exact in-bounds slice before splicing, succeeds on every
string input for the real pattern table (so no internal string access can
fail), and a category whose rule never matches anything contributes nothing
and raises no error. -/
theorem c9_engine_totality :
    (∀ text : List Char, maskChecked botPats text = some (maskM botPats text)) ∧
    (∀ (pats₁ pats₂ : PatTable) (ty : List Char) (text : List Char),
      mask (pats₁ ++ (ty, fun _ => []) :: pats₂) text = mask (pats₁ ++ pats₂) text) := by
  constructor
  · intro text
    exact maskChecked_some botPats_valid
  · intro pats₁ pats₂ ty text
    have hfold : ∀ st : MState,
        (pats₁ ++ (ty, fun _ => []) :: pats₂).foldl maskCat st
          = (pats₁ ++ pats₂).foldl maskCat st := by
      intro st
      rw [List.foldl_append, List.foldl_append, List.foldl_cons]
      rw [show maskCat (pats₁.foldl maskCat st) (ty, fun _ => [])
        = pats₁.foldl maskCat st from rfl]
    simp [mask, maskM, hfold]

/-- C10: the two call sites diverge — `app.py`'s five-category table and
`customer_support_bot.py`'s seven-category table give different results on
`"AB123456"`, which only the `USER_ID` rule (absent from `app.py`) matches. -/
theorem c10_call_site_divergence :
    mask appPats ("AB123456" : String).toList = (("AB123456" : String).toList, []) ∧
    mask botPats ("AB123456" : String).toList
      = (("<USER_ID_1>" : String).toList,
         [(("<USER_ID_1>" : String).toList, ("AB123456" : String).toList)]) ∧
    mask botPats ("AB123456" : String).toList
      ≠ mask appPats ("AB123456" : String).toList := by decide

end PII
